import Mathlib

/-!
Verification of the core of the `translator` command-line tool (Go): an
insertion-ordered string map, a JSON object codec, an incremental-translation
merge, and a batch translator that protects embedded newlines with a
placeholder token before calling an external translation API.

Strings are modelled as lists of characters (`Str`); Go standard-library
string operations used by the program (`strings.TrimSpace`,
`strings.ReplaceAll`, `strings.Split`, `strings.Join`, `unicode.IsSpace`)
are embedded as executable functions on `Str`.  The external translation
API is abstracted as a function from the list of texts actually sent to the
returned message content.  File I/O is modelled by passing optional file
contents; "writing" a file is modelled by returning the text that would be
written.
-/

/-- A Go string, modelled as its list of characters. -/
abbrev Str := List Char

/-- Go `unicode.IsSpace`: the Unicode White_Space property
(U+0009–U+000D, U+0020, U+0085, U+00A0, U+1680, U+2000–U+200A,
U+2028, U+2029, U+202F, U+205F, U+3000). -/
def goIsSpace (c : Char) : Bool :=
  let n := c.toNat
  n = 9 || n = 10 || n = 11 || n = 12 || n = 13 || n = 32 || n = 0x85 || n = 0xA0 ||
  n = 0x1680 || (0x2000 ≤ n && n ≤ 0x200A) || n = 0x2028 || n = 0x2029 || n = 0x202F ||
  n = 0x205F || n = 0x3000

/-- Go `strings.TrimSpace`: drop leading and trailing whitespace. -/
def goTrimSpace (s : Str) : Str :=
  ((s.dropWhile goIsSpace).reverse.dropWhile goIsSpace).reverse

/-- `dropPat pat s = some t` iff `s = pat ++ t`: try to strip `pat` from the
front of `s` (helper for the embedding of `strings.ReplaceAll` and
`strings.Contains`). -/
def dropPat : Str → Str → Option Str
  | [], s => some s
  | _ :: _, [] => none
  | p :: ps, c :: cs => if p = c then dropPat ps cs else none

/-- Go `strings.Contains s pat` (for nonempty `pat`): some position of `s`
starts with `pat`. -/
def containsSub : Str → Str → Bool
  | s, pat =>
    match s with
    | [] => (dropPat pat ([] : Str)).isSome
    | _ :: rest => (dropPat pat s).isSome || containsSub rest pat

/-- Fueled worker for `strings.ReplaceAll`: scan left to right, replacing each
(non-overlapping) occurrence of `pat` by `rep`.  The fuel is only a
termination device: one unit is spent per consumed character, so fuel
`s.length` is always enough (see `replaceAllAux_fuel`). -/
def replaceAllAux (pat rep : Str) : Nat → Str → Str
  | _, [] => []
  | 0, s => s
  | fuel + 1, c :: rest =>
    match dropPat pat (c :: rest) with
    | some t => rep ++ replaceAllAux pat rep fuel t
    | none => c :: replaceAllAux pat rep fuel rest

/-- Go `strings.ReplaceAll s pat rep` (argument order as in Go:
`strings.ReplaceAll(s, old, new)`), for nonempty `pat` as used by the
program. -/
def goReplaceAll (s pat rep : Str) : Str :=
  replaceAllAux pat rep s.length s

/-- The reserved newline marker of the program
(`const newlinePlaceholder = "{{NEWLINE_PLACEHOLDER}}"`). -/
def newlinePlaceholder : Str := "\x7b\x7bNEWLINE_PLACEHOLDER\x7d\x7d".data

/-- The one-character string `"\n"`. -/
def nlStr : Str := ['\n']

/-- Go `strings.Split s "\n"` (the separator used by the program). -/
def splitOnNL : Str → List Str
  | [] => [[]]
  | c :: rest =>
    if c = '\n' then [] :: splitOnNL rest
    else
      match splitOnNL rest with
      | seg :: segs => (c :: seg) :: segs
      | [] => [[c]]

/-- Go `strings.Join texts "\n"`. -/
def joinNL : List Str → Str
  | [] => []
  | [t] => t
  | t :: ts => t ++ '\n' :: joinNL ts

/-- Positional lookup in a list (Go slice indexing, total variant). -/
def nth : List α → Nat → Option α
  | [], _ => none
  | a :: _, 0 => some a
  | _ :: t, n + 1 => nth t n

/-- In-range positional update (Go `slice[i] = x`). -/
def setIdx : List α → Nat → α → List α
  | [], _, _ => []
  | _ :: t, 0, b => b :: t
  | a :: t, n + 1, b => a :: setIdx t n b

/-- The program's `OrderedMap` (an ordered key sequence plus a key-to-value
map with identical key set), modelled as an association list whose key
order is the insertion order; the `keys`-are-unique invariant of the Go
struct corresponds to `nodupKeys`. -/
abbrev OMap := List (Str × Str)

/-- `OrderedMap.Set`: appends the key on first sight, otherwise overwrites
the value in place. -/
def OMap.set : OMap → Str → Str → OMap
  | [], k, v => [(k, v)]
  | (k', v') :: rest, k, v =>
    if k' = k then (k', v) :: rest else (k', v') :: OMap.set rest k v

/-- `OrderedMap.Get`. -/
def OMap.get : OMap → Str → Option Str
  | [], _ => none
  | (k', v') :: rest, k => if k' = k then some v' else OMap.get rest k

/-- The ordered key sequence of a store. -/
def keysOf (m : OMap) : List Str := m.map Prod.fst

/-- The `OrderedMap` invariant: keys are pairwise distinct. -/
def nodupKeys (m : OMap) : Prop := (keysOf m).Nodup

instance (m : OMap) : Decidable (nodupKeys m) := by
  unfold nodupKeys; infer_instance

/-- The loop body of `mergeJSON`: walks the input entries in order carrying
the merged store and the untranslated-key list, exactly as the Go loop
mutates them. -/
def mergeGoLoop (output : OMap) : List (Str × Str) → OMap → List Str → OMap × List Str
  | [], merged, untr => (merged, untr)
  | (key, inputValue) :: rest, merged, untr =>
    let merged1 := OMap.set merged key inputValue
    match OMap.get output key with
    | none => mergeGoLoop output rest merged1 (untr ++ [key])
    | some outputValue =>
      if outputValue = inputValue then mergeGoLoop output rest merged1 (untr ++ [key])
      else mergeGoLoop output rest (OMap.set merged1 key outputValue) untr

/-- `mergeJSON input output`: returns the merged store and the keys needing
translation. -/
def mergeJSON (input output : OMap) : OMap × List Str :=
  mergeGoLoop output input [] []

/-- `cleanTranslation`: remove only leading and trailing whitespace. -/
def cleanTranslation (t : Str) : Str := goTrimSpace t

/-- The non-blank entries of a batch with their positions, mirroring the
`nonEmptyTexts`/`nonEmptyIndices` pair built by `translateText` (a value is
blank when it trims to the empty string). -/
def nonEmptyIdx : Nat → List Str → List (Nat × Str)
  | _, [] => []
  | i, t :: ts =>
    if goTrimSpace t ≠ [] then (i, t) :: nonEmptyIdx (i + 1) ts
    else nonEmptyIdx (i + 1) ts

/-- The texts actually joined into the translation request for a batch:
exactly the non-blank ones, in order (`nonEmptyTexts`). -/
def sentTexts (texts : List Str) : List Str := (nonEmptyIdx 0 texts).map Prod.snd

/-- `translateText`, with the chat-completion call abstracted as `api`,
a function from the list of texts actually sent (`sentTexts`) to the
returned message content.  Mirrors the source: empty batch short-circuits;
an all-blank batch is returned unchanged without calling the API; otherwise
the response is split on newlines, its line count must equal the non-blank
count, each line is trimmed and written back at the position of the
corresponding non-blank input. -/
def translateText (api : List Str → Except String Str) (texts : List Str) :
    Except String (List Str) :=
  if texts.length = 0 then .ok []
  else
    let ne := nonEmptyIdx 0 texts
    if ne.length = 0 then .ok texts
    else
      match api (sentTexts texts) with
      | .error e => .error e
      | .ok content =>
        let translatedTexts := splitOnNL content
        if translatedTexts.length ≠ ne.length then .error "translation mismatch"
        else
          let cleaned := translatedTexts.map cleanTranslation
          .ok (((ne.map Prod.fst).zip cleaned).foldl
            (fun result p => setIdx result p.1 (cleanTranslation p.2)) texts)

/-- Writing one translated batch into `translatedData`: each translated value
has the newline placeholder reversed back to a literal newline and is stored
under the key at the same batch position. -/
def flushBatch (translatedData : OMap) (batchKeys : List Str) (translatedBatch : List Str) :
    OMap :=
  (batchKeys.zip translatedBatch).foldl
    (fun acc p => OMap.set acc p.1 (goReplaceAll p.2 newlinePlaceholder nlStr))
    translatedData

/-- The loop of `translateJSONValues`: walk the entries in order, replace
newlines with the placeholder, accumulate a batch, flush when it reaches
`batchSize`, and flush the remainder at the end. -/
def tjvLoop (api : List Str → Except String Str) (batchSize : Nat) :
    List (Str × Str) → List Str → List Str → OMap → Except String OMap
  | [], batch, batchKeys, translatedData =>
    if batch.length > 0 then
      match translateText api batch with
      | .error e => .error ("error translating final batch: " ++ e)
      | .ok tb => .ok (flushBatch translatedData batchKeys tb)
    else .ok translatedData
  | (key, value) :: rest, batch, batchKeys, translatedData =>
    let v := goReplaceAll value nlStr newlinePlaceholder
    let batch' := batch ++ [v]
    let batchKeys' := batchKeys ++ [key]
    if batch'.length = batchSize then
      match translateText api batch' with
      | .error e => .error ("error translating batch: " ++ e)
      | .ok tb => tjvLoop api batchSize rest [] [] (flushBatch translatedData batchKeys' tb)
    else tjvLoop api batchSize rest batch' batchKeys' translatedData

/-- `translateJSONValues`. -/
def translateJSONValues (api : List Str → Except String Str) (data : OMap)
    (batchSize : Nat) : Except String OMap :=
  tjvLoop api batchSize data [] [] []

/-- The identity-translation stub: the returned content is exactly the sent
texts joined by newlines (what the prompt asks a perfectly obedient
translator to echo for an identity language). -/
def idApi : List Str → Except String Str := fun sent => .ok (joinNL sent)

/-- Lowercase hex digit, as used by Go `encoding/json` string escaping. -/
def hexDigitLower (n : Nat) : Char :=
  if n < 10 then Char.ofNat (48 + n) else Char.ofNat (87 + n)

/-- Go `encoding/json` escaping of one character inside a string literal with
`SetEscapeHTML(false)`: quote, backslash and control characters are escaped
(`\n`, `\r`, `\t` short forms, `\u00xx` otherwise), U+2028/U+2029 are always
escaped, and `<`, `>`, `&` are left literal. -/
def escapeChar (c : Char) : Str :=
  if c = '"' then ['\\', '"']
  else if c = '\\' then ['\\', '\\']
  else if c = '\n' then ['\\', 'n']
  else if c = '\r' then ['\\', 'r']
  else if c = '\t' then ['\\', 't']
  else if c.toNat < 0x20 then
    ['\\', 'u', '0', '0', hexDigitLower (c.toNat / 16), hexDigitLower (c.toNat % 16)]
  else if c.toNat = 0x2028 then ['\\', 'u', '2', '0', '2', '8']
  else if c.toNat = 0x2029 then ['\\', 'u', '2', '0', '2', '9']
  else [c]

/-- Escape a whole string body. -/
def escapeStr : Str → Str
  | [] => []
  | c :: rest => escapeChar c ++ escapeStr rest

/-- `encodeJSON` applied to a string: the quoted, escaped JSON string literal
(the encoder's trailing newline is trimmed by the source's `encodeJSON`). -/
def encodeJSONString (s : Str) : Str := '"' :: (escapeStr s ++ ['"'])

/-- The per-entry lines written by `writeJSONFile`: two-space indent,
`"key": "value"`, a comma except after the last entry, one entry per line. -/
def writeEntries : OMap → Str
  | [] => []
  | [(k, v)] =>
    ' ' :: ' ' :: (encodeJSONString k ++ ':' :: ' ' :: (encodeJSONString v ++ ['\n']))
  | (k, v) :: rest =>
    ' ' :: ' ' ::
      (encodeJSONString k ++ ':' :: ' ' :: (encodeJSONString v ++ ',' :: '\n' :: writeEntries rest))

/-- The full text written by `writeJSONFile`. -/
def writeJSONText (data : OMap) : Str :=
  '{' :: '\n' :: (writeEntries data ++ ['}', '\n'])

/-- The token stream of Go `encoding/json.Decoder`. -/
inductive JToken where
  | lbrace
  | rbrace
  | lbrack
  | rbrack
  | jstr (s : Str)
  | jnum (lexeme : Str)
  | jbool (b : Bool)
  | jnull
deriving DecidableEq, Repr

/-- Value of a hex digit. -/
def hexVal (c : Char) : Option Nat :=
  if '0' ≤ c ∧ c ≤ '9' then some (c.toNat - 48)
  else if 'a' ≤ c ∧ c ≤ 'f' then some (c.toNat - 87)
  else if 'A' ≤ c ∧ c ≤ 'F' then some (c.toNat - 55)
  else none

/-- Parse exactly four hex digits. -/
def hex4 : Str → Option (Nat × Str)
  | a :: b :: c :: d :: rest =>
    match hexVal a, hexVal b, hexVal c, hexVal d with
    | some x, some y, some z, some w => some (((x * 16 + y) * 16 + z) * 16 + w, rest)
    | _, _, _, _ => none
  | _ => none

/-- Short escape characters accepted inside JSON string literals. -/
def escCharOf (e : Char) : Option Char :=
  if e = '"' then some '"'
  else if e = '\\' then some '\\'
  else if e = '/' then some '/'
  else if e = 'b' then some '\x08'
  else if e = 'f' then some '\x0c'
  else if e = 'n' then some '\n'
  else if e = 'r' then some '\r'
  else if e = 't' then some '\t'
  else none

/-- Attempt to read a low-surrogate escape `\uXXXX` (helper for surrogate
pair combination, mirroring Go's lookahead in `unquoteChar`). -/
def lowSurrogate : Str → Option (Nat × Str)
  | c1 :: c2 :: more =>
    if c1 = '\\' ∧ c2 = 'u' then
      match hex4 more with
      | some (n2, rest3) =>
        if 0xDC00 ≤ n2 ∧ n2 < 0xE000 then some (n2, rest3) else none
      | none => none
    else none
  | _ => none

/-- Fueled scanner for the body of a JSON string literal (the opening quote
already consumed): returns the decoded string and the remaining input.
Models Go `encoding/json` unquoting, including surrogate-pair combination
and U+FFFD substitution for lone surrogates.  One fuel unit is spent per
decoded unit and every step consumes at least one character, so fuel
`s.length` always suffices. -/
def lexStringAux : Nat → Str → Except String (Str × Str)
  | _, [] => .error "unexpected end of string literal"
  | 0, _ => .error "out of fuel"
  | fuel + 1, c :: rest =>
    if c = '"' then .ok ([], rest)
    else if c = '\\' then
      match rest with
      | [] => .error "unexpected end of escape"
      | e :: rest2 =>
        if e = 'u' then
          match hex4 rest2 with
          | none => .error "invalid unicode escape"
          | some (n, rest3) =>
            if 0xD800 ≤ n ∧ n < 0xE000 then
              match lowSurrogate rest3 with
              | some (n2, rest4) =>
                if n < 0xDC00 then
                  (lexStringAux fuel rest4).map
                    (fun p =>
                      (Char.ofNat (0x10000 + (n - 0xD800) * 0x400 + (n2 - 0xDC00)) :: p.1,
                       p.2))
                else (lexStringAux fuel rest3).map (fun p => ('�' :: p.1, p.2))
              | none => (lexStringAux fuel rest3).map (fun p => ('�' :: p.1, p.2))
            else (lexStringAux fuel rest3).map (fun p => (Char.ofNat n :: p.1, p.2))
        else
          match escCharOf e with
          | some d => (lexStringAux fuel rest2).map (fun p => (d :: p.1, p.2))
          | none => .error "invalid escape character"
    else if c.toNat < 0x20 then .error "control character in string literal"
    else (lexStringAux fuel rest).map (fun p => (c :: p.1, p.2))

/-- Characters that may continue a JSON number lexeme. -/
def isNumChar (c : Char) : Bool :=
  ('0' ≤ c && c ≤ '9') || c = '-' || c = '+' || c = '.' || c = 'e' || c = 'E'

/-- Fueled tokenizer producing the stream that `json.Decoder.Token` yields:
whitespace skipped, `,` and `:` elided (their positional validation, done by
Go's state machine, is not modelled), delimiters and scalar values as
tokens; number lexemes are kept unvalidated.  Tokenization is eager whereas
Go's is lazy, so text after the top-level value is scanned here though Go
would never read it. -/
def jsonTokensAux : Nat → Str → Except String (List JToken)
  | _, [] => .ok []
  | 0, _ => .error "out of fuel"
  | fuel + 1, c :: rest =>
    if c = ' ' || c = '\t' || c = '\n' || c = '\r' then jsonTokensAux fuel rest
    else if c = ',' || c = ':' then jsonTokensAux fuel rest
    else if c = '{' then (jsonTokensAux fuel rest).map (JToken.lbrace :: ·)
    else if c = '}' then (jsonTokensAux fuel rest).map (JToken.rbrace :: ·)
    else if c = '[' then (jsonTokensAux fuel rest).map (JToken.lbrack :: ·)
    else if c = ']' then (jsonTokensAux fuel rest).map (JToken.rbrack :: ·)
    else if c = '"' then
      match lexStringAux rest.length rest with
      | .error e => .error e
      | .ok (s, rest') => (jsonTokensAux fuel rest').map (JToken.jstr s :: ·)
    else if isNumChar c then
      (jsonTokensAux fuel (rest.dropWhile isNumChar)).map
        (JToken.jnum (c :: rest.takeWhile isNumChar) :: ·)
    else
      match dropPat "true".data (c :: rest) with
      | some r => (jsonTokensAux fuel r).map (JToken.jbool true :: ·)
      | none =>
        match dropPat "false".data (c :: rest) with
        | some r => (jsonTokensAux fuel r).map (JToken.jbool false :: ·)
        | none =>
          match dropPat "null".data (c :: rest) with
          | some r => (jsonTokensAux fuel r).map (JToken.jnull :: ·)
          | none => .error "invalid character"

/-- Tokenize a document text. -/
def tokenize (s : Str) : Except String (List JToken) := jsonTokensAux s.length s

/-- An aborted run: a Go panic or a returned error. -/
inductive RunErr where
  | panicked (msg : String)
  | errored (msg : String)
deriving DecidableEq, Repr

/-- Closing delimiters, for the `decoder.More()` test. -/
def isCloseTok : JToken → Bool
  | .rbrace => true
  | .rbrack => true
  | _ => false

/-- The token-consuming loop of `readJSONFile`: while `More()`, read a key
token, `Decode` a string value, then `Set(key.(string), value)` — the
type assertion panics when the key token is not a string (reachable only
for non-object top levels).  After the loop one more token is read (the
closing delimiter); at end of input that read fails. -/
def readTokLoop : List JToken → OMap → Except RunErr OMap
  | [], _ => .error (.errored "error reading JSON end")
  | t :: rest, om =>
    if isCloseTok t then .ok om
    else
      match rest with
      | .jstr v :: rest' =>
        match t with
        | .jstr k => readTokLoop rest' (OMap.set om k v)
        | _ => .error (.panicked "interface conversion: interface is not string")
      | _ => .error (.errored "error reading JSON value")

/-- `readJSONFile` on a token stream: the first token (whatever it is) is
consumed unchecked, then keys and values are read until `More()` fails. -/
def readTokens (ts : List JToken) : Except RunErr OMap :=
  match ts with
  | [] => .error (.errored "error reading JSON start")
  | _ :: rest => readTokLoop rest []

/-- Decode a document text as `readJSONFile` does. -/
def decodeDoc (text : Str) : Except RunErr OMap :=
  match tokenize text with
  | .error e => .error (.errored e)
  | .ok ts => readTokens ts

/-- `readJSONFile` with the file modelled as optional contents: a missing
file yields an empty store without error (the `os.IsNotExist` branch). -/
def readJSONFile : Option Str → Except RunErr OMap
  | none => .ok []
  | some text => decodeDoc text

/-- Building `toTranslate`: for each untranslated key in order, copy its
merged value. -/
def toTranslateOf (merged : OMap) (untranslatedKeys : List Str) : OMap :=
  untranslatedKeys.foldl
    (fun acc key =>
      match OMap.get merged key with
      | some value => OMap.set acc key value
      | none => acc)
    []

/-- Merging translated values back over the merged store. -/
def applyTranslated (merged translatedData : OMap) : OMap :=
  translatedData.foldl (fun acc p => OMap.set acc p.1 p.2) merged

/-- The in-memory part of `translateJSON`: merge, translate the untranslated
keys when there are any, merge the translations back. -/
def runPipelineStores (api : List Str → Except String Str)
    (inputJSON outputJSON : OMap) (batchSize : Nat) : Except String OMap :=
  let mu := mergeJSON inputJSON outputJSON
  if mu.2.length > 0 then
    match translateJSONValues api (toTranslateOf mu.1 mu.2) batchSize with
    | .error e => .error ("error translating JSON values: " ++ e)
    | .ok translatedData => .ok (applyTranslated mu.1 translatedData)
  else .ok mu.1

/-- The whole run of `translateJSON` with files as optional contents: read
input and output files, run the pipeline, and (only on success) produce the
final store together with the text written to the output file.  An error
anywhere aborts before anything is written. -/
def translateJSONModel (api : List Str → Except String Str)
    (inputFile outputFile : Option Str) (batchSize : Nat) :
    Except RunErr (OMap × Str) :=
  match readJSONFile inputFile with
  | .error e => .error e
  | .ok inputJSON =>
    match readJSONFile outputFile with
    | .error e => .error e
    | .ok outputJSON =>
      match runPipelineStores api inputJSON outputJSON batchSize with
      | .error e => .error (.errored e)
      | .ok merged => .ok (merged, writeJSONText merged)

deriving instance DecidableEq for Except

theorem dropPat_self_append (pat x : Str) : dropPat pat (pat ++ x) = some x := by
  induction pat with
  | nil => rfl
  | cons p ps ih => simp [dropPat, ih]

theorem dropPat_eq_some (pat : Str) : ∀ s u : Str, dropPat pat s = some u → s = pat ++ u := by
  induction pat with
  | nil => intro s u h; simp [dropPat] at h; simp [h]
  | cons p ps ih =>
    intro s u h
    cases s with
    | nil => simp [dropPat] at h
    | cons c cs =>
      simp only [dropPat] at h
      split at h
      · next hpc => subst hpc; simpa using ih cs u h
      · exact absurd h (by simp)

theorem containsSub_iff (pat : Str) : ∀ s : Str,
    containsSub s pat = true ↔ ∃ a b, s = a ++ pat ++ b := by
  intro s
  induction s with
  | nil =>
    simp only [containsSub]
    constructor
    · intro h
      cases pat with
      | nil => exact ⟨[], [], rfl⟩
      | cons p ps => simp [dropPat] at h
    · rintro ⟨a, b, hab⟩
      have ha : a = [] ∧ pat ++ b = [] := by
        cases a with
        | nil => exact ⟨rfl, hab.symm⟩
        | cons x xs => simp at hab
      have hp : pat = [] := by
        cases pat with
        | nil => rfl
        | cons x xs => have := ha.2; simp at this
      subst hp; simp [dropPat]
  | cons c rest ih =>
    simp only [containsSub, Bool.or_eq_true]
    constructor
    · rintro (h | h)
      · rcases Option.isSome_iff_exists.mp h with ⟨u, hu⟩
        exact ⟨[], u, by simpa using dropPat_eq_some pat _ u hu⟩
      · rcases ih.mp h with ⟨a, b, hab⟩
        exact ⟨c :: a, b, by simp [hab]⟩
    · rintro ⟨a, b, hab⟩
      cases a with
      | nil =>
        left
        simp only [List.nil_append] at hab
        rw [hab, dropPat_self_append]
        rfl
      | cons a0 as =>
        right
        apply ih.mpr
        refine ⟨as, b, ?_⟩
        simp only [List.cons_append, List.cons.injEq] at hab
        exact hab.2

theorem containsSub_false_left {a pat : Str} (b : Str)
    (h : containsSub (a ++ b) pat = false) : containsSub a pat = false := by
  by_contra hc
  rcases (containsSub_iff pat a).mp (by revert hc; cases containsSub a pat <;> simp) with ⟨x, y, hxy⟩
  have : containsSub (a ++ b) pat = true :=
    (containsSub_iff pat _).mpr ⟨x, y ++ b, by simp [hxy]⟩
  rw [this] at h; cases h

theorem containsSub_false_right {b pat : Str} (a : Str)
    (h : containsSub (a ++ b) pat = false) : containsSub b pat = false := by
  by_contra hc
  rcases (containsSub_iff pat b).mp (by revert hc; cases containsSub b pat <;> simp) with ⟨x, y, hxy⟩
  have : containsSub (a ++ b) pat = true :=
    (containsSub_iff pat _).mpr ⟨a ++ x, y, by simp [hxy]⟩
  rw [this] at h; cases h

theorem OMap.set_fresh (k : Str) (v : Str) : ∀ m : OMap, k ∉ keysOf m →
    OMap.set m k v = m ++ [(k, v)] := by
  intro m
  induction m with
  | nil => intro _; rfl
  | cons p rest ih =>
    intro h
    obtain ⟨k', v'⟩ := p
    simp only [keysOf, List.map_cons, List.mem_cons] at h
    push_neg at h
    simp only [OMap.set]
    rw [if_neg (fun he => h.1 he.symm)]
    simp [ih (by simpa [keysOf] using h.2)]

theorem OMap.set_append_self (k v w : Str) : ∀ m : OMap, k ∉ keysOf m →
    OMap.set (m ++ [(k, v)]) k w = m ++ [(k, w)] := by
  intro m
  induction m with
  | nil => simp [OMap.set]
  | cons p rest ih =>
    intro h
    obtain ⟨k', v'⟩ := p
    simp only [keysOf, List.map_cons, List.mem_cons] at h
    push_neg at h
    simp only [List.cons_append, OMap.set]
    rw [if_neg (fun he => h.1 he.symm)]
    simp [ih (by simpa [keysOf] using h.2)]

theorem OMap.get_append_right (k : Str) (m2 : OMap) : ∀ m1 : OMap, k ∉ keysOf m1 →
    OMap.get (m1 ++ m2) k = OMap.get m2 k := by
  intro m1
  induction m1 with
  | nil => intro _; rfl
  | cons p rest ih =>
    intro h
    obtain ⟨k', v'⟩ := p
    simp only [keysOf, List.map_cons, List.mem_cons] at h
    push_neg at h
    simp only [List.cons_append, OMap.get]
    rw [if_neg (fun he => h.1 he.symm)]
    exact ih (by simpa [keysOf] using h.2)

theorem OMap.get_append_left (k : Str) (m2 : OMap) : ∀ m1 : OMap, k ∈ keysOf m1 →
    OMap.get (m1 ++ m2) k = OMap.get m1 k := by
  intro m1
  induction m1 with
  | nil => intro h; simp [keysOf] at h
  | cons p rest ih =>
    intro h
    obtain ⟨k', v'⟩ := p
    simp only [List.cons_append, OMap.get]
    by_cases he : k' = k
    · simp [he]
    · rw [if_neg he, if_neg he]
      apply ih
      simp only [keysOf, List.map_cons, List.mem_cons] at h
      rcases h with h | h
      · exact absurd h.symm he
      · simpa [keysOf] using h

theorem OMap.get_self_append (k v : Str) (m2 : OMap) : ∀ m1 : OMap, k ∉ keysOf m1 →
    OMap.get (m1 ++ (k, v) :: m2) k = some v := by
  intro m1 h
  rw [OMap.get_append_right k _ m1 h]
  simp [OMap.get]

theorem OMap.get_set_self (k v : Str) : ∀ m : OMap, OMap.get (OMap.set m k v) k = some v := by
  intro m
  induction m with
  | nil => simp [OMap.set, OMap.get]
  | cons p rest ih =>
    obtain ⟨k', v'⟩ := p
    simp only [OMap.set]
    by_cases he : k' = k
    · simp [OMap.get, he]
    · simp [OMap.get, he, ih]

theorem OMap.get_set_ne (k k2 v : Str) (hne : k ≠ k2) : ∀ m : OMap,
    OMap.get (OMap.set m k v) k2 = OMap.get m k2 := by
  intro m
  induction m with
  | nil => simp [OMap.set, OMap.get, hne]
  | cons p rest ih =>
    obtain ⟨k', v'⟩ := p
    simp only [OMap.set]
    by_cases he : k' = k
    · subst he; simp [OMap.get, hne, ih]
    · simp [OMap.get, he, ih]

theorem keysOf_set_mem (k v : Str) : ∀ m : OMap, k ∈ keysOf m →
    keysOf (OMap.set m k v) = keysOf m := by
  intro m
  induction m with
  | nil => intro h; simp [keysOf] at h
  | cons p rest ih =>
    intro h
    obtain ⟨k', v'⟩ := p
    simp only [OMap.set]
    by_cases he : k' = k
    · simp [keysOf, he]
    · rw [if_neg he]
      simp only [keysOf, List.map_cons, List.mem_cons] at h ⊢
      rcases h with h | h
      · exact absurd h.symm he
      · rw [show (List.map Prod.fst (OMap.set rest k v)) = keysOf (OMap.set rest k v) from rfl,
            ih h]
        rfl

theorem keysOf_set_not_mem (k v : Str) (m : OMap) (h : k ∉ keysOf m) :
    keysOf (OMap.set m k v) = keysOf m ++ [k] := by
  rw [OMap.set_fresh k v m h]
  simp [keysOf]

theorem nodupKeys_set (k v : Str) (m : OMap) (h : nodupKeys m) :
    nodupKeys (OMap.set m k v) := by
  by_cases hm : k ∈ keysOf m
  · unfold nodupKeys
    rw [keysOf_set_mem k v m hm]
    exact h
  · unfold nodupKeys
    rw [keysOf_set_not_mem k v m hm]
    simpa [nodupKeys, List.nodup_append] using ⟨h, hm⟩

theorem OMap.get_set_isSome (k k2 v : Str) (m : OMap)
    (h : (OMap.get m k2).isSome) : (OMap.get (OMap.set m k v) k2).isSome := by
  by_cases he : k = k2
  · subst he; simp [OMap.get_set_self]
  · rwa [OMap.get_set_ne k k2 v he m]

theorem foldl_set_isSome (k2 : Str) (f : Str × Str → Str) : ∀ (ps : List (Str × Str)) (m : OMap),
    (OMap.get m k2).isSome →
    (OMap.get (ps.foldl (fun acc p => OMap.set acc p.1 (f p)) m) k2).isSome := by
  intro ps
  induction ps with
  | nil => intro m h; exact h
  | cons p rest ih =>
    intro m h
    exact ih _ (OMap.get_set_isSome p.1 k2 (f p) m h)

/-- Folding `Set` over pairs whose keys are fresh and pairwise distinct
appends the (transformed) pairs in order. -/
theorem foldl_set_fresh (f : Str × Str → Str) : ∀ (ps : List (Str × Str)) (m : OMap),
    (∀ p ∈ ps, p.1 ∉ keysOf m) → (ps.map Prod.fst).Nodup →
    ps.foldl (fun acc p => OMap.set acc p.1 (f p)) m = m ++ ps.map (fun p => (p.1, f p)) := by
  intro ps
  induction ps with
  | nil => intro m _ _; simp
  | cons p rest ih =>
    intro m hfresh hnodup
    simp only [List.foldl_cons]
    rw [OMap.set_fresh p.1 (f p) m (hfresh p (by simp))]
    rw [ih (m ++ [(p.1, f p)]) ?_ ?_]
    · simp
    · intro q hq
      have h1 : q.1 ∉ keysOf m := hfresh q (List.mem_cons_of_mem p hq)
      have h2 : q.1 ≠ p.1 := by
        simp only [List.map_cons, List.nodup_cons] at hnodup
        intro he
        exact hnodup.1 (he ▸ List.mem_map_of_mem Prod.fst hq)
      simp only [keysOf, List.map_append, List.mem_append, List.map_cons, List.map_nil]
      rintro (hc | hc)
      · exact h1 hc
      · simp only [List.mem_cons, List.not_mem_nil, or_false] at hc
        exact h2 hc
    · simp only [List.map_cons, List.nodup_cons] at hnodup
      exact hnodup.2

/-- The merge loop, characterized: starting from a state whose keys are
disjoint from the (duplicate-free) remaining input keys, it appends one
merged entry per input entry — the existing output value when it exists and
differs from the source value, the source value otherwise — and appends to
the untranslated list exactly the keys whose output entry is absent or
equal to the source value. -/
theorem mergeGoLoop_char (output : OMap) : ∀ (input : List (Str × Str)) (m0 : OMap) (u0 : List Str),
    (∀ p ∈ input, p.1 ∉ keysOf m0) → (input.map Prod.fst).Nodup →
    mergeGoLoop output input m0 u0 =
      (m0 ++ input.map (fun p =>
          (p.1, match OMap.get output p.1 with
                | none => p.2
                | some ov => if ov = p.2 then p.2 else ov)),
       u0 ++ (input.filter (fun p =>
          match OMap.get output p.1 with
          | none => true
          | some ov => ov == p.2)).map Prod.fst) := by
  intro input
  induction input with
  | nil => intro m0 u0 _ _; simp [mergeGoLoop]
  | cons p rest ih =>
    intro m0 u0 hfresh hnodup
    obtain ⟨key, value⟩ := p
    simp only [List.map_cons, List.nodup_cons] at hnodup
    have hkey : key ∉ keysOf m0 := hfresh (key, value) (by simp)
    have hfr : ∀ w : Str, ∀ q ∈ rest, q.1 ∉ keysOf (m0 ++ [(key, w)]) := by
      intro w q hq
      simp only [keysOf, List.map_append, List.mem_append, List.map_cons, List.map_nil]
      rintro (hc | hc)
      · exact hfresh q (List.mem_cons_of_mem _ hq) hc
      · simp only [List.mem_cons, List.not_mem_nil, or_false] at hc
        exact hnodup.1 (hc ▸ List.mem_map_of_mem Prod.fst hq)
    simp only [mergeGoLoop]
    cases hout : OMap.get output key with
    | none =>
      rw [OMap.set_fresh key value m0 hkey]
      rw [ih _ _ (hfr value) hnodup.2]
      simp [hout, List.filter_cons]
    | some ov =>
      by_cases hov : ov = value
      · dsimp only
        rw [if_pos hov]
        rw [OMap.set_fresh key value m0 hkey]
        rw [ih _ _ (hfr value) hnodup.2]
        simp [hout, hov, List.filter_cons]
      · dsimp only
        rw [if_neg hov]
        rw [OMap.set_fresh key value m0 hkey, OMap.set_append_self key value ov m0 hkey]
        rw [ih _ _ (hfr ov) hnodup.2]
        simp [hout, hov, List.filter_cons]

/-- `mergeJSON`, characterized (for a source store with the `OrderedMap`
key-uniqueness invariant). -/
theorem mergeJSON_char (input output : OMap) (h : nodupKeys input) :
    mergeJSON input output =
      (input.map (fun p =>
          (p.1, match OMap.get output p.1 with
                | none => p.2
                | some ov => if ov = p.2 then p.2 else ov)),
       (input.filter (fun p =>
          match OMap.get output p.1 with
          | none => true
          | some ov => ov == p.2)).map Prod.fst) := by
  have := mergeGoLoop_char output input [] [] (by simp [keysOf]) h
  simpa [mergeJSON] using this

theorem keysOf_mergeJSON (input output : OMap) (h : nodupKeys input) :
    keysOf (mergeJSON input output).1 = keysOf input := by
  rw [mergeJSON_char input output h]
  simp [keysOf, Function.comp]

theorem get_isSome_of_mem_keys (k : Str) : ∀ m : OMap, k ∈ keysOf m →
    (OMap.get m k).isSome := by
  intro m
  induction m with
  | nil => intro h; simp [keysOf] at h
  | cons p rest ih =>
    intro h
    obtain ⟨k', v'⟩ := p
    simp only [OMap.get]
    by_cases he : k' = k
    · simp [he]
    · rw [if_neg he]
      apply ih
      simp only [keysOf, List.map_cons, List.mem_cons] at h
      rcases h with h | h
      · exact absurd h.symm he
      · exact h

theorem replaceAllAux_fuel_irrel (pat rep : Str) (hpat : pat ≠ []) :
    ∀ (f1 f2 : Nat) (s : Str), s.length ≤ f1 → s.length ≤ f2 →
    replaceAllAux pat rep f1 s = replaceAllAux pat rep f2 s := by
  intro f1
  induction f1 with
  | zero =>
    intro f2 s hs1 _
    have hnil : s = [] := List.length_eq_zero.mp (Nat.le_zero.mp hs1)
    subst hnil
    cases f2 <;> rfl
  | succ n ih =>
    intro f2 s hs1 hs2
    cases s with
    | nil => cases f2 <;> rfl
    | cons c rest =>
      cases f2 with
      | zero => simp at hs2
      | succ m =>
        simp only [replaceAllAux]
        cases hd : dropPat pat (c :: rest) with
        | some t =>
          have hlen : t.length ≤ rest.length := by
            have he := dropPat_eq_some pat _ t hd
            cases pat with
            | nil => exact absurd rfl hpat
            | cons p ps =>
              have : (c :: rest).length = ((p :: ps) ++ t).length := by rw [he]
              simp only [List.length_cons, List.length_append] at this
              omega
          simp only [List.length_cons] at hs1 hs2
          dsimp only
          congr 1
          exact ih m t (by omega) (by omega)
        | none =>
          simp only [List.length_cons] at hs1 hs2
          dsimp only
          congr 1
          exact ih m rest (by omega) (by omega)

theorem goReplaceAll_head_match (pat rep s t : Str) (hpat : pat ≠ [])
    (hd : dropPat pat s = some t) :
    goReplaceAll s pat rep = rep ++ goReplaceAll t pat rep := by
  cases s with
  | nil =>
    cases pat with
    | nil => exact absurd rfl hpat
    | cons p ps => simp [dropPat] at hd
  | cons c rest =>
    have hlen : t.length ≤ rest.length := by
      have he := dropPat_eq_some pat _ t hd
      cases pat with
      | nil => exact absurd rfl hpat
      | cons p ps =>
        have : (c :: rest).length = ((p :: ps) ++ t).length := by rw [he]
        simp only [List.length_cons, List.length_append] at this
        omega
    unfold goReplaceAll
    simp only [List.length_cons, replaceAllAux, hd]
    congr 1
    exact replaceAllAux_fuel_irrel pat rep hpat rest.length t.length t hlen le_rfl

theorem goReplaceAll_head_miss (pat rep : Str) (c : Char) (rest : Str)
    (hd : dropPat pat (c :: rest) = none) :
    goReplaceAll (c :: rest) pat rep = c :: goReplaceAll rest pat rep := by
  unfold goReplaceAll
  simp only [List.length_cons, replaceAllAux, hd]

/-- `strings.ReplaceAll` is the identity when the pattern does not occur. -/
theorem goReplaceAll_of_not_contains (pat rep : Str) :
    ∀ s : Str, containsSub s pat = false → goReplaceAll s pat rep = s := by
  intro s
  induction s with
  | nil => intro _; rfl
  | cons c rest ih =>
    intro h
    simp only [containsSub, Bool.or_eq_false_iff] at h
    have hd : dropPat pat (c :: rest) = none := by
      cases hdp : dropPat pat (c :: rest) with
      | none => rfl
      | some u => rw [hdp] at h; simp at h
    rw [goReplaceAll_head_miss pat rep c rest hd, ih h.2]

theorem goReplaceAll_length_le (pat rep : Str) (hpat : pat ≠ [])
    (hrep : rep.length ≤ pat.length) :
    ∀ (f : Nat) (s : Str), s.length ≤ f → (replaceAllAux pat rep f s).length ≤ s.length := by
  intro f
  induction f with
  | zero =>
    intro s hs
    have hnil : s = [] := List.length_eq_zero.mp (Nat.le_zero.mp hs)
    subst hnil; simp [replaceAllAux]
  | succ n ih =>
    intro s hs
    cases s with
    | nil => simp [replaceAllAux]
    | cons c rest =>
      simp only [replaceAllAux]
      cases hd : dropPat pat (c :: rest) with
      | some t =>
        have he := dropPat_eq_some pat _ t hd
        have hlen : (c :: rest).length = pat.length + t.length := by
          rw [he]; simp
        have hp1 : 1 ≤ pat.length := by
          cases pat with
          | nil => exact absurd rfl hpat
          | cons p ps => simp
        simp only [List.length_cons] at hs hlen
        have := ih t (by omega)
        dsimp only
        simp only [List.length_append, List.length_cons]
        omega
      | none =>
        simp only [List.length_cons] at hs
        have := ih rest (by omega)
        dsimp only
        simp only [List.length_cons]
        omega

theorem goReplaceAll_length_lt (pat rep : Str) (hpat : pat ≠ [])
    (hrep : rep.length < pat.length) :
    ∀ s : Str, containsSub s pat = true → (goReplaceAll s pat rep).length < s.length := by
  intro s
  induction s with
  | nil =>
    intro h
    simp only [containsSub] at h
    cases pat with
    | nil => exact absurd rfl hpat
    | cons p ps => simp [dropPat] at h
  | cons c rest ih =>
    intro h
    cases hd : dropPat pat (c :: rest) with
    | some t =>
      rw [goReplaceAll_head_match pat rep _ t hpat hd]
      have he := dropPat_eq_some pat _ t hd
      have hlen : (c :: rest).length = pat.length + t.length := by rw [he]; simp
      have hle : (goReplaceAll t pat rep).length ≤ t.length := by
        unfold goReplaceAll
        exact goReplaceAll_length_le pat rep hpat (le_of_lt hrep) t.length t le_rfl
      simp only [List.length_append]
      omega
    | none =>
      simp only [containsSub, Bool.or_eq_true] at h
      rcases h with h | h
      · rw [hd] at h; simp at h
      · rw [goReplaceAll_head_miss pat rep c rest hd]
        have := ih h
        simp only [List.length_cons]
        omega

theorem dropPat_nl (c : Char) (rest : Str) :
    dropPat nlStr (c :: rest) = if '\n' = c then some rest else none := by
  simp only [nlStr, dropPat]

theorem forward_cons_nl (s : Str) :
    goReplaceAll ('\n' :: s) nlStr newlinePlaceholder =
      newlinePlaceholder ++ goReplaceAll s nlStr newlinePlaceholder := by
  refine goReplaceAll_head_match _ _ _ _ (by simp [nlStr]) ?_
  rw [dropPat_nl, if_pos rfl]

theorem forward_cons_other (c : Char) (s : Str) (hc : c ≠ '\n') :
    goReplaceAll (c :: s) nlStr newlinePlaceholder =
      c :: goReplaceAll s nlStr newlinePlaceholder := by
  apply goReplaceAll_head_miss
  rw [dropPat_nl, if_neg (fun h => hc h.symm)]

theorem forward_append (a b : Str) :
    goReplaceAll (a ++ b) nlStr newlinePlaceholder =
      goReplaceAll a nlStr newlinePlaceholder ++ goReplaceAll b nlStr newlinePlaceholder := by
  induction a with
  | nil => simp [goReplaceAll, replaceAllAux]
  | cons c a' ih =>
    by_cases hc : c = '\n'
    · subst hc
      rw [List.cons_append, forward_cons_nl, forward_cons_nl, ih, List.append_assoc]
    · rw [List.cons_append, forward_cons_other _ _ hc, forward_cons_other _ _ hc, ih,
        List.cons_append]

theorem forward_no_nl : ∀ s : Str, '\n' ∉ s →
    goReplaceAll s nlStr newlinePlaceholder = s := by
  intro s
  induction s with
  | nil => intro _; rfl
  | cons c s' ih =>
    intro h
    simp only [List.mem_cons] at h
    push_neg at h
    rw [forward_cons_other _ _ (fun he => h.1 he.symm), ih h.2]

theorem nl_not_mem_ph : '\n' ∉ newlinePlaceholder := by decide

theorem nl_not_mem_forward : ∀ s : Str, '\n' ∉ goReplaceAll s nlStr newlinePlaceholder := by
  intro s
  induction s with
  | nil => simp [goReplaceAll, replaceAllAux]
  | cons c s' ih =>
    by_cases hc : c = '\n'
    · subst hc
      rw [forward_cons_nl]
      intro hmem
      rcases List.mem_append.mp hmem with hmem | hmem
      · exact nl_not_mem_ph hmem
      · exact ih hmem
    · rw [forward_cons_other _ _ hc]
      intro hmem
      rcases List.mem_cons.mp hmem with hmem | hmem
      · exact hc hmem.symm
      · exact ih hmem

theorem ph_no_border : ∀ j < 23, 0 < j →
    newlinePlaceholder.drop j ≠ newlinePlaceholder.take (23 - j) := by decide

/-- A nonempty placeholder-free prefix cannot begin a placeholder occurrence:
there is no occurrence of the token straddling the boundary between such a
prefix and an inserted token (the token has no nontrivial border). -/
theorem no_spurious_prefix : ∀ (t R : Str), containsSub t newlinePlaceholder = false →
    t ≠ [] → dropPat newlinePlaceholder (t ++ newlinePlaceholder ++ R) = none := by
  intro t R h htne
  cases hdp : dropPat newlinePlaceholder (t ++ newlinePlaceholder ++ R) with
  | none => rfl
  | some u =>
    exfalso
    have he : t ++ newlinePlaceholder ++ R = newlinePlaceholder ++ u :=
      dropPat_eq_some _ _ _ hdp
    have hphlen : newlinePlaceholder.length = 23 := by decide
    by_cases hlen : 23 ≤ t.length
    · have l1 : (t ++ newlinePlaceholder ++ R).take 23 = t.take 23 := by
        rw [List.append_assoc, List.take_append_eq_append_take, Nat.sub_eq_zero_of_le hlen,
          List.take_zero, List.append_nil]
      have l2 : (newlinePlaceholder ++ u).take 23 = newlinePlaceholder := by
        rw [List.take_append_eq_append_take, hphlen, Nat.sub_self, List.take_zero,
          List.append_nil, ← hphlen, List.take_length]
      have h1 : t.take 23 = newlinePlaceholder := by
        have hc := congrArg (List.take 23) he
        rw [l1, l2] at hc
        exact hc
      have hcontra : containsSub t newlinePlaceholder = true := by
        apply (containsSub_iff _ _).mpr
        exact ⟨[], t.drop 23, by rw [List.nil_append, ← h1, List.take_append_drop]⟩
      rw [hcontra] at h; cases h
    · push_neg at hlen
      have hpos : 0 < t.length := List.length_pos.mpr htne
      have hnle : t.length ≤ newlinePlaceholder.length := by omega
      have l1 : (t ++ newlinePlaceholder ++ R).take t.length = t := by
        rw [List.append_assoc, List.take_append_eq_append_take, Nat.sub_self, List.take_zero,
          List.append_nil, List.take_length]
      have l2 : (newlinePlaceholder ++ u).take t.length = newlinePlaceholder.take t.length := by
        rw [List.take_append_eq_append_take, Nat.sub_eq_zero_of_le hnle, List.take_zero,
          List.append_nil]
      have ht : t = newlinePlaceholder.take t.length := by
        have hc := congrArg (List.take t.length) he
        rw [l1, l2] at hc
        exact hc
      have d1 : (t ++ newlinePlaceholder ++ R).drop t.length = newlinePlaceholder ++ R := by
        rw [List.append_assoc, List.drop_append_eq_append_drop, Nat.sub_self, List.drop_zero,
          List.drop_length, List.nil_append]
      have d2 : (newlinePlaceholder ++ u).drop t.length =
          newlinePlaceholder.drop t.length ++ u := by
        rw [List.drop_append_eq_append_drop, Nat.sub_eq_zero_of_le hnle, List.drop_zero]
      have hdrop : newlinePlaceholder ++ R = newlinePlaceholder.drop t.length ++ u := by
        have hc := congrArg (List.drop t.length) he
        rw [d1, d2] at hc
        exact hc
      have hdl : (newlinePlaceholder.drop t.length).length = 23 - t.length := by
        rw [List.length_drop, hphlen]
      have e1 : (newlinePlaceholder ++ R).take (23 - t.length) =
          newlinePlaceholder.take (23 - t.length) := by
        rw [List.take_append_eq_append_take,
          Nat.sub_eq_zero_of_le (by omega : 23 - t.length ≤ newlinePlaceholder.length),
          List.take_zero, List.append_nil]
      have e2 : (newlinePlaceholder.drop t.length ++ u).take (23 - t.length) =
          newlinePlaceholder.drop t.length := by
        rw [List.take_append_eq_append_take, hdl, Nat.sub_self, List.take_zero,
          List.append_nil, ← hdl, List.take_length]
      have hfin : newlinePlaceholder.take (23 - t.length) =
          newlinePlaceholder.drop t.length := by
        have hc := congrArg (List.take (23 - t.length)) hdrop
        rw [e1, e2] at hc
        exact hc
      exact ph_no_border t.length (by omega) hpos hfin.symm

theorem containsSub_tail {c : Char} {rest pat : Str}
    (h : containsSub (c :: rest) pat = false) : containsSub rest pat = false := by
  have h' := h
  simp only [containsSub, Bool.or_eq_false_iff] at h'
  exact h'.2

/-- Undoing the placeholder after a token-free prefix: the scan copies the
prefix verbatim, replaces the inserted token by a newline, and continues. -/
theorem backward_skip : ∀ (t R : Str), containsSub t newlinePlaceholder = false →
    goReplaceAll (t ++ newlinePlaceholder ++ R) newlinePlaceholder nlStr =
      t ++ '\n' :: goReplaceAll R newlinePlaceholder nlStr := by
  intro t
  induction t with
  | nil =>
    intro R _
    simp only [List.nil_append]
    rw [goReplaceAll_head_match newlinePlaceholder nlStr _ R (by decide)
      (dropPat_self_append _ _)]
    rfl
  | cons c t' ih =>
    intro R h
    have hd : dropPat newlinePlaceholder ((c :: t') ++ newlinePlaceholder ++ R) = none :=
      no_spurious_prefix (c :: t') R h (by simp)
    have hshape : (c :: t') ++ newlinePlaceholder ++ R =
        c :: (t' ++ newlinePlaceholder ++ R) := by simp
    rw [hshape] at hd ⊢
    rw [goReplaceAll_head_miss _ _ _ _ hd, ih R (containsSub_tail h)]
    simp

theorem exists_first_nl : ∀ s : Str, '\n' ∈ s →
    ∃ a b : Str, s = a ++ '\n' :: b ∧ '\n' ∉ a := by
  intro s
  induction s with
  | nil => intro h; cases h
  | cons c rest ih =>
    intro h
    by_cases hc : c = '\n'
    · subst hc; exact ⟨[], rest, rfl, by simp⟩
    · have hr : '\n' ∈ rest := by
        rcases List.mem_cons.mp h with h | h
        · exact absurd h.symm hc
        · exact h
      obtain ⟨a, b, hab, hana⟩ := ih hr
      refine ⟨c :: a, b, by rw [hab]; rfl, ?_⟩
      intro hmem
      rcases List.mem_cons.mp hmem with hmem | hmem
      · exact hc hmem.symm
      · exact hana hmem

theorem forward_backward_aux : ∀ (n : Nat) (s : Str), s.length ≤ n →
    containsSub s newlinePlaceholder = false →
    goReplaceAll (goReplaceAll s nlStr newlinePlaceholder) newlinePlaceholder nlStr = s := by
  intro n
  induction n with
  | zero =>
    intro s hs _
    have hnil : s = [] := List.length_eq_zero.mp (Nat.le_zero.mp hs)
    subst hnil; rfl
  | succ n ih =>
    intro s hs h
    by_cases hnl : '\n' ∈ s
    · obtain ⟨a, b, hsab, hana⟩ := exists_first_nl s hnl
      subst hsab
      rw [forward_append, forward_no_nl a hana, forward_cons_nl, ← List.append_assoc]
      rw [backward_skip a _ (containsSub_false_left _ h)]
      have hb : containsSub b newlinePlaceholder = false :=
        containsSub_tail (containsSub_false_right a h)
      have hblen : b.length ≤ n := by
        have := hs
        simp only [List.length_append, List.length_cons] at this
        omega
      rw [ih b hblen hb]
    · rw [forward_no_nl s hnl]
      exact goReplaceAll_of_not_contains _ _ s h

/-- The newline-protection round trip: a string free of the placeholder
token survives replace-then-unreplace exactly. -/
theorem forward_backward (s : Str) (h : containsSub s newlinePlaceholder = false) :
    goReplaceAll (goReplaceAll s nlStr newlinePlaceholder) newlinePlaceholder nlStr = s :=
  forward_backward_aux s.length s le_rfl h

theorem splitOnNL_no_nl : ∀ t : Str, '\n' ∉ t → splitOnNL t = [t] := by
  intro t
  induction t with
  | nil => intro _; rfl
  | cons c rest ih =>
    intro h
    simp only [List.mem_cons] at h
    push_neg at h
    simp only [splitOnNL]
    rw [if_neg (fun he => h.1 he.symm), ih h.2]

theorem splitOnNL_append_nl : ∀ (t X : Str), '\n' ∉ t →
    splitOnNL (t ++ '\n' :: X) = t :: splitOnNL X := by
  intro t
  induction t with
  | nil =>
    intro X _
    simp [splitOnNL]
  | cons c t' ih =>
    intro X h
    simp only [List.mem_cons] at h
    push_neg at h
    simp only [List.cons_append, splitOnNL]
    rw [if_neg (fun he => h.1 he.symm)]
    show (match splitOnNL (t' ++ '\n' :: X) with
      | seg :: segs => (c :: seg) :: segs
      | [] => [[c]]) = (c :: t') :: splitOnNL X
    rw [ih X h.2]

theorem joinNL_cons (t : Str) (ts : List Str) (h : ts ≠ []) :
    joinNL (t :: ts) = t ++ '\n' :: joinNL ts := by
  cases ts with
  | nil => exact absurd rfl h
  | cons t2 ts' => rfl

/-- Splitting the newline-join of newline-free texts recovers them. -/
theorem splitOnNL_joinNL : ∀ ts : List Str, (∀ t ∈ ts, '\n' ∉ t) → ts ≠ [] →
    splitOnNL (joinNL ts) = ts := by
  intro ts
  induction ts with
  | nil => intro _ h; exact absurd rfl h
  | cons t ts' ih =>
    intro hmem _
    cases hts : ts' with
    | nil => exact splitOnNL_no_nl t (hmem t (by simp))
    | cons t2 ts'' =>
      subst hts
      rw [joinNL_cons t (t2 :: ts'') (by simp)]
      rw [splitOnNL_append_nl t _ (hmem t (by simp))]
      rw [ih (fun x hx => hmem x (List.mem_cons_of_mem t hx)) (by simp)]

theorem goTrimSpace_nil : goTrimSpace [] = [] := rfl

theorem goTrimSpace_eq_nil_all_space : ∀ v : Str, goTrimSpace v = [] →
    ∀ c ∈ v, goIsSpace c = true := by
  intro v h c hc
  unfold goTrimSpace at h
  have h2 : (v.dropWhile goIsSpace).reverse.dropWhile goIsSpace = [] := by
    have := congrArg List.reverse h
    simpa using this
  have h3 : ∀ x ∈ (v.dropWhile goIsSpace).reverse, goIsSpace x = true :=
    List.dropWhile_eq_nil_iff.mp h2
  have h4 : ∀ x ∈ v.dropWhile goIsSpace, goIsSpace x = true := by
    intro x hx
    exact h3 x (List.mem_reverse.mpr hx)
  have hsplit : v = v.takeWhile goIsSpace ++ v.dropWhile goIsSpace :=
    (List.takeWhile_append_dropWhile (p := goIsSpace) (l := v)).symm
  rw [hsplit] at hc
  rcases List.mem_append.mp hc with hc | hc
  · exact List.mem_takeWhile_imp hc
  · exact h4 c hc

theorem blank_no_ph (v : Str) (h : goTrimSpace v = []) :
    containsSub v newlinePlaceholder = false := by
  cases hcs : containsSub v newlinePlaceholder with
  | false => rfl
  | true =>
    exfalso
    rcases (containsSub_iff _ _).mp hcs with ⟨a, b, hab⟩
    have hbrace : '\x7b' ∈ v := by
      rw [hab]
      refine List.mem_append.mpr (Or.inl (List.mem_append.mpr (Or.inr ?_)))
      decide
    have := goTrimSpace_eq_nil_all_space v h '\x7b' hbrace
    simp [goIsSpace] at this

theorem nth_mem : ∀ (l : List α) (n : Nat) (a : α), nth l n = some a → a ∈ l := by
  intro l
  induction l with
  | nil => intro n a h; simp [nth] at h
  | cons x xs ih =>
    intro n a h
    cases n with
    | zero => simp only [nth, Option.some.injEq] at h; simp [h]
    | succ m => exact List.mem_cons_of_mem x (ih m a h)

theorem nonEmptyIdx_mem : ∀ (ts : List Str) (i : Nat) (p : Nat × Str),
    p ∈ nonEmptyIdx i ts →
    i ≤ p.1 ∧ nth ts (p.1 - i) = some p.2 ∧ goTrimSpace p.2 ≠ [] := by
  intro ts
  induction ts with
  | nil => intro i p h; simp [nonEmptyIdx] at h
  | cons t ts' ih =>
    intro i p h
    simp only [nonEmptyIdx] at h
    by_cases hb : goTrimSpace t ≠ []
    · rw [if_pos hb] at h
      rcases List.mem_cons.mp h with h | h
      · subst h
        exact ⟨le_rfl, by simp [nth], hb⟩
      · obtain ⟨h1, h2, h3⟩ := ih (i + 1) p h
        refine ⟨by omega, ?_, h3⟩
        have : p.1 - i = (p.1 - (i + 1)) + 1 := by omega
        rw [this]
        exact h2
    · rw [if_neg hb] at h
      obtain ⟨h1, h2, h3⟩ := ih (i + 1) p h
      refine ⟨by omega, ?_, h3⟩
      have : p.1 - i = (p.1 - (i + 1)) + 1 := by omega
      rw [this]
      exact h2

theorem nonEmptyIdx_eq_nil : ∀ (ts : List Str) (i : Nat),
    (∀ t ∈ ts, goTrimSpace t = []) → nonEmptyIdx i ts = [] := by
  intro ts
  induction ts with
  | nil => intro i _; rfl
  | cons t ts' ih =>
    intro i h
    simp only [nonEmptyIdx]
    rw [if_neg (by simp [h t (by simp)])]
    exact ih (i + 1) (fun x hx => h x (List.mem_cons_of_mem t hx))

theorem nonEmptyIdx_nil_all_blank : ∀ (ts : List Str) (i : Nat),
    nonEmptyIdx i ts = [] → ∀ t ∈ ts, goTrimSpace t = [] := by
  intro ts
  induction ts with
  | nil => intro i _ t ht; cases ht
  | cons t ts' ih =>
    intro i h t' ht'
    simp only [nonEmptyIdx] at h
    by_cases hb : goTrimSpace t ≠ []
    · rw [if_pos hb] at h; cases h
    · rw [if_neg hb] at h
      push_neg at hb
      rcases List.mem_cons.mp ht' with ht' | ht'
      · rw [ht']; exact hb
      · exact ih (i + 1) h t' ht'

/-- A blank value never appears among the texts sent to the API. -/
theorem blank_not_sent (v : Str) (hv : goTrimSpace v = []) :
    ∀ texts : List Str, v ∉ sentTexts texts := by
  intro texts hmem
  unfold sentTexts at hmem
  rcases List.mem_map.mp hmem with ⟨p, hp, hpv⟩
  have := (nonEmptyIdx_mem texts 0 p hp).2.2
  rw [hpv, hv] at this
  exact this rfl

theorem length_setIdx : ∀ (l : List α) (i : Nat) (b : α),
    (setIdx l i b).length = l.length := by
  intro l
  induction l with
  | nil => intro i b; rfl
  | cons x xs ih =>
    intro i b
    cases i with
    | zero => simp [setIdx]
    | succ m => simp [setIdx, ih]

theorem nth_setIdx_ne : ∀ (l : List α) (i j : Nat) (b : α), i ≠ j →
    nth (setIdx l i b) j = nth l j := by
  intro l
  induction l with
  | nil => intro i j b _; cases i <;> rfl
  | cons x xs ih =>
    intro i j b hij
    cases i with
    | zero =>
      cases j with
      | zero => exact absurd rfl hij
      | succ m => rfl
    | succ m =>
      cases j with
      | zero => rfl
      | succ k => exact ih m k b (fun h => hij (by rw [h]))

theorem setIdx_self : ∀ (l : List α) (i : Nat) (b : α), nth l i = some b →
    setIdx l i b = l := by
  intro l
  induction l with
  | nil => intro i b h; simp [nth] at h
  | cons x xs ih =>
    intro i b h
    cases i with
    | zero => simp only [nth, Option.some.injEq] at h; simp [setIdx, h]
    | succ m => simp only [nth] at h; simp [setIdx, ih m b h]

/-- Folding position updates that write back each position's current value
leaves the list unchanged. -/
theorem foldl_setIdx_id (g : Nat × Str → Str) : ∀ (pairs : List (Nat × Str)) (l : List Str),
    (∀ p ∈ pairs, nth l p.1 = some (g p)) →
    pairs.foldl (fun a p => setIdx a p.1 (g p)) l = l := by
  intro pairs
  induction pairs with
  | nil => intro l _; rfl
  | cons p rest ih =>
    intro l h
    simp only [List.foldl_cons]
    rw [setIdx_self l p.1 (g p) (h p (by simp))]
    exact ih l (fun q hq => h q (List.mem_cons_of_mem p hq))

theorem foldl_setIdx_length (g : Nat × Str → Str) : ∀ (pairs : List (Nat × Str)) (l : List Str),
    (pairs.foldl (fun a p => setIdx a p.1 (g p)) l).length = l.length := by
  intro pairs
  induction pairs with
  | nil => intro l; rfl
  | cons p rest ih =>
    intro l
    simp only [List.foldl_cons]
    rw [ih, length_setIdx]

theorem foldl_setIdx_nth_ne (g : Nat × Str → Str) : ∀ (pairs : List (Nat × Str))
    (l : List Str) (j : Nat), (∀ p ∈ pairs, p.1 ≠ j) →
    nth (pairs.foldl (fun a p => setIdx a p.1 (g p)) l) j = nth l j := by
  intro pairs
  induction pairs with
  | nil => intro l j _; rfl
  | cons p rest ih =>
    intro l j h
    simp only [List.foldl_cons]
    rw [ih _ j (fun q hq => h q (List.mem_cons_of_mem p hq)),
      nth_setIdx_ne l p.1 j (g p) (h p (by simp))]

theorem translateText_nil (api : List Str → Except String Str) :
    translateText api [] = .ok [] := rfl

theorem translateText_all_blank (api : List Str → Except String Str) (texts : List Str)
    (hne : texts ≠ []) (hblank : nonEmptyIdx 0 texts = []) :
    translateText api texts = .ok texts := by
  unfold translateText
  rw [if_neg (by simpa using hne)]
  rw [if_pos (by rw [hblank]; rfl)]

theorem translateText_api_error (api : List Str → Except String Str) (texts : List Str)
    (e : String) (hsome : nonEmptyIdx 0 texts ≠ []) (hapi : api (sentTexts texts) = .error e) :
    translateText api texts = .error e := by
  have htne : texts ≠ [] := by
    intro h; subst h; exact hsome rfl
  unfold translateText
  rw [if_neg (by simpa using htne)]
  rw [if_neg (by simpa using hsome)]
  rw [hapi]

theorem translateText_mismatch (api : List Str → Except String Str) (texts : List Str)
    (content : Str) (hsome : nonEmptyIdx 0 texts ≠ [])
    (hapi : api (sentTexts texts) = .ok content)
    (hmis : (splitOnNL content).length ≠ (nonEmptyIdx 0 texts).length) :
    translateText api texts = .error "translation mismatch" := by
  have htne : texts ≠ [] := by
    intro h; subst h; exact hsome rfl
  unfold translateText
  rw [if_neg (by simpa using htne)]
  rw [if_neg (by simpa using hsome)]
  rw [hapi]
  dsimp only
  rw [if_pos hmis]

theorem translateText_ok_char (api : List Str → Except String Str) (texts : List Str)
    (content : Str) (hsome : nonEmptyIdx 0 texts ≠ [])
    (hapi : api (sentTexts texts) = .ok content)
    (hlen : (splitOnNL content).length = (nonEmptyIdx 0 texts).length) :
    translateText api texts =
      .ok ((((nonEmptyIdx 0 texts).map Prod.fst).zip
            ((splitOnNL content).map cleanTranslation)).foldl
        (fun result p => setIdx result p.1 (cleanTranslation p.2)) texts) := by
  have htne : texts ≠ [] := by
    intro h; subst h; exact hsome rfl
  unfold translateText
  rw [if_neg (by simpa using htne)]
  rw [if_neg (by simpa using hsome)]
  rw [hapi]
  dsimp only
  rw [if_neg (by simp [hlen])]

theorem translateText_ok_length (api : List Str → Except String Str) (texts r : List Str)
    (h : translateText api texts = .ok r) : r.length = texts.length := by
  unfold translateText at h
  by_cases h0 : texts.length = 0
  · rw [if_pos h0] at h
    have : r = [] := by
      cases h; rfl
    rw [this, List.length_eq_zero.mp h0]
  · rw [if_neg h0] at h
    by_cases h1 : (nonEmptyIdx 0 texts).length = 0
    · rw [if_pos h1] at h
      cases h; rfl
    · rw [if_neg h1] at h
      cases hapi : api (sentTexts texts) with
      | error e => rw [hapi] at h; cases h
      | ok content =>
        rw [hapi] at h
        dsimp only at h
        by_cases h2 : (splitOnNL content).length ≠ (nonEmptyIdx 0 texts).length
        · rw [if_pos h2] at h; cases h
        · rw [if_neg h2] at h
          have hr : r = (((nonEmptyIdx 0 texts).map Prod.fst).zip
              ((splitOnNL content).map cleanTranslation)).foldl
              (fun result p => setIdx result p.1 (cleanTranslation p.2)) texts := by
            cases h; rfl
          rw [hr, foldl_setIdx_length]

/-- Blank positions come through `translateText` unchanged. -/
theorem translateText_blank_nth (api : List Str → Except String Str) (texts r : List Str)
    (h : translateText api texts = .ok r) (j : Nat) (v : Str)
    (hv : nth texts j = some v) (hblank : goTrimSpace v = []) : nth r j = some v := by
  unfold translateText at h
  by_cases h0 : texts.length = 0
  · rw [List.length_eq_zero.mp h0] at hv
    simp [nth] at hv
  · rw [if_neg h0] at h
    by_cases h1 : (nonEmptyIdx 0 texts).length = 0
    · rw [if_pos h1] at h
      cases h; exact hv
    · rw [if_neg h1] at h
      cases hapi : api (sentTexts texts) with
      | error e => rw [hapi] at h; cases h
      | ok content =>
        rw [hapi] at h
        dsimp only at h
        by_cases h2 : (splitOnNL content).length ≠ (nonEmptyIdx 0 texts).length
        · rw [if_pos h2] at h; cases h
        · rw [if_neg h2] at h
          have hr : r = (((nonEmptyIdx 0 texts).map Prod.fst).zip
              ((splitOnNL content).map cleanTranslation)).foldl
              (fun result p => setIdx result p.1 (cleanTranslation p.2)) texts := by
            cases h; rfl
          rw [hr, foldl_setIdx_nth_ne]
          · exact hv
          · intro p hp hpj
            have hfst : p.1 ∈ (nonEmptyIdx 0 texts).map Prod.fst :=
              (List.of_mem_zip hp).1
            rcases List.mem_map.mp hfst with ⟨q, hq, hq1⟩
            obtain ⟨_, hqn, hqb⟩ := nonEmptyIdx_mem texts 0 q hq
            rw [Nat.sub_zero] at hqn
            rw [hq1, hpj] at hqn
            rw [hv] at hqn
            have hveq : v = q.2 := Option.some.inj hqn
            rw [← hveq] at hqb
            exact hqb hblank

/-- With the identity-translation stub, a batch of trim-fixed, newline-free
texts comes back exactly as it went in. -/
theorem translateText_id (texts : List Str)
    (h : ∀ t ∈ texts, '\n' ∉ t ∧ goTrimSpace t = t) :
    translateText idApi texts = .ok texts := by
  cases htexts : texts with
  | nil => rfl
  | cons t0 ts0 =>
    subst htexts
    by_cases hne : nonEmptyIdx 0 (t0 :: ts0) = []
    · exact translateText_all_blank idApi _ (by simp) hne
    · have hsent : sentTexts (t0 :: ts0) = (nonEmptyIdx 0 (t0 :: ts0)).map Prod.snd := rfl
      have hsentnl : ∀ x ∈ sentTexts (t0 :: ts0), '\n' ∉ x := by
        intro x hx
        rcases List.mem_map.mp hx with ⟨q, hq, hq2⟩
        obtain ⟨_, hqn, _⟩ := nonEmptyIdx_mem _ 0 q hq
        rw [Nat.sub_zero] at hqn
        exact hq2 ▸ (h q.2 (nth_mem _ _ _ hqn)).1
      have hsentne : sentTexts (t0 :: ts0) ≠ [] := by
        intro hnil
        exact hne (List.map_eq_nil_iff.mp hnil)
      have hsplit : splitOnNL (joinNL (sentTexts (t0 :: ts0))) = sentTexts (t0 :: ts0) :=
        splitOnNL_joinNL _ hsentnl hsentne
      have hlen : (splitOnNL (joinNL (sentTexts (t0 :: ts0)))).length =
          (nonEmptyIdx 0 (t0 :: ts0)).length := by
        rw [hsplit, hsent, List.length_map]
      rw [translateText_ok_char idApi _ _ hne rfl hlen]
      congr 1
      rw [hsplit, hsent]
      rw [List.map_map, List.zip_map']
      apply foldl_setIdx_id
      intro p hp
      rcases List.mem_map.mp hp with ⟨q, hq, hqp⟩
      obtain ⟨_, hqn, _⟩ := nonEmptyIdx_mem _ 0 q hq
      rw [Nat.sub_zero] at hqn
      have hqmem : q.2 ∈ t0 :: ts0 := nth_mem _ _ _ hqn
      have hfix : goTrimSpace q.2 = q.2 := (h q.2 hqmem).2
      rw [← hqp]
      simpa [cleanTranslation, hfix] using hqn

theorem mem_nth : ∀ (l : List α) (a : α), a ∈ l → ∃ n, nth l n = some a := by
  intro l
  induction l with
  | nil => intro a h; cases h
  | cons x xs ih =>
    intro a h
    rcases List.mem_cons.mp h with h | h
    · exact ⟨0, by simp [nth, h]⟩
    · obtain ⟨n, hn⟩ := ih a h
      exact ⟨n + 1, hn⟩

theorem nth_map (f : α → β) : ∀ (l : List α) (n : Nat) (a : α),
    nth l n = some a → nth (l.map f) n = some (f a) := by
  intro l
  induction l with
  | nil => intro n a h; simp [nth] at h
  | cons x xs ih =>
    intro n a h
    cases n with
    | zero =>
      simp only [nth, Option.some.injEq] at h
      simp [nth, h]
    | succ m => exact ih m a h

theorem nth_zip : ∀ (l1 : List α) (l2 : List β) (n : Nat) (a : α) (b : β),
    nth l1 n = some a → nth l2 n = some b → (a, b) ∈ l1.zip l2 := by
  intro l1
  induction l1 with
  | nil => intro l2 n a b h _; simp [nth] at h
  | cons x xs ih =>
    intro l2 n a b h1 h2
    cases l2 with
    | nil => simp [nth] at h2
    | cons y ys =>
      cases n with
      | zero =>
        simp only [nth, Option.some.injEq] at h1 h2
        simp [List.zip_cons_cons, h1, h2]
      | succ m =>
        simp only [nth] at h1 h2
        exact List.mem_cons_of_mem _ (ih ys m a b h1 h2)

theorem foldl_set_get_ne (f : Str × Str → Str) (k : Str) :
    ∀ (ps : List (Str × Str)) (m : OMap), (∀ p ∈ ps, p.1 ≠ k) →
    OMap.get (ps.foldl (fun acc p => OMap.set acc p.1 (f p)) m) k = OMap.get m k := by
  intro ps
  induction ps with
  | nil => intro m _; rfl
  | cons p rest ih =>
    intro m h
    simp only [List.foldl_cons]
    rw [ih _ (fun q hq => h q (List.mem_cons_of_mem p hq)),
      OMap.get_set_ne p.1 k (f p) (h p (by simp)) m]

theorem flushBatch_get : ∀ (batchKeys : List Str) (tb : List Str) (acc : OMap) (k w : Str),
    batchKeys.Nodup → (k, w) ∈ batchKeys.zip tb →
    OMap.get (flushBatch acc batchKeys tb) k =
      some (goReplaceAll w newlinePlaceholder nlStr) := by
  intro batchKeys
  induction batchKeys with
  | nil => intro tb acc k w _ h; simp at h
  | cons k0 keys' ih =>
    intro tb acc k w hnodup hmem
    cases tb with
    | nil => simp at hmem
    | cons w0 tb' =>
      simp only [List.zip_cons_cons, List.mem_cons] at hmem
      simp only [List.nodup_cons] at hnodup
      rcases hmem with hmem | hmem
      · have hk : k = k0 ∧ w = w0 := by
          constructor
          · exact congrArg Prod.fst hmem
          · exact congrArg Prod.snd hmem
        obtain ⟨rfl, rfl⟩ := hk
        unfold flushBatch
        simp only [List.zip_cons_cons, List.foldl_cons]
        rw [foldl_set_get_ne]
        · exact OMap.get_set_self k _ acc
        · intro p hp
          have := (List.of_mem_zip hp).1
          intro he
          exact hnodup.1 (he ▸ this)
      · unfold flushBatch at ih ⊢
        simp only [List.zip_cons_cons, List.foldl_cons]
        exact ih tb' _ k w hnodup.2 hmem

theorem flushBatch_get_ne : ∀ (batchKeys tb : List Str) (acc : OMap) (k : Str),
    k ∉ batchKeys → OMap.get (flushBatch acc batchKeys tb) k = OMap.get acc k := by
  intro batchKeys tb acc k hk
  unfold flushBatch
  apply foldl_set_get_ne
  intro p hp
  have := (List.of_mem_zip hp).1
  intro he
  exact hk (he ▸ this)

theorem flushBatch_append (batchKeys tb : List Str) (acc : OMap)
    (hlen : batchKeys.length = tb.length)
    (hfresh : ∀ x ∈ batchKeys, x ∉ keysOf acc) (hnodup : batchKeys.Nodup) :
    flushBatch acc batchKeys tb =
      acc ++ (batchKeys.zip tb).map
        (fun p => (p.1, goReplaceAll p.2 newlinePlaceholder nlStr)) := by
  unfold flushBatch
  rw [foldl_set_fresh]
  · intro p hp
    exact hfresh p.1 (List.of_mem_zip hp).1
  · rw [List.map_fst_zip _ _ (le_of_eq hlen)]
    exact hnodup

/-- Flushing a batch preserves a blank, newline-free value at its key. -/
theorem flush_blank_get (api : List Str → Except String Str) (pend : List (Str × Str))
    (acc : OMap) (tb : List Str) (k v : Str)
    (hnodup : (pend.map Prod.fst).Nodup) (hmem : (k, v) ∈ pend)
    (hbl : goTrimSpace v = []) (hnl : '\n' ∉ v)
    (htt : translateText api
      (pend.map fun p => goReplaceAll p.2 nlStr newlinePlaceholder) = .ok tb) :
    OMap.get (flushBatch acc (pend.map Prod.fst) tb) k = some v := by
  obtain ⟨j, hj⟩ := mem_nth pend (k, v) hmem
  have hjk : nth (pend.map Prod.fst) j = some k := nth_map Prod.fst pend j (k, v) hj
  have hfwd : goReplaceAll v nlStr newlinePlaceholder = v := forward_no_nl v hnl
  have hjb : nth (pend.map fun p => goReplaceAll p.2 nlStr newlinePlaceholder) j
      = some v := by
    have hm := nth_map (fun p : Str × Str => goReplaceAll p.2 nlStr newlinePlaceholder)
      pend j (k, v) hj
    rw [show (fun p : Str × Str => goReplaceAll p.2 nlStr newlinePlaceholder) (k, v)
      = v from hfwd] at hm
    exact hm
  have htb : nth tb j = some v := translateText_blank_nth api _ tb htt j v hjb hbl
  have hzip : (k, v) ∈ (pend.map Prod.fst).zip tb := nth_zip _ tb j k v hjk htb
  rw [flushBatch_get _ tb acc k v hnodup hzip]
  rw [goReplaceAll_of_not_contains _ _ v (blank_no_ph v hbl)]

/-- A key outside the pending batch and the remaining entries keeps its
`translatedData` binding through the rest of the loop. -/
theorem tjvLoop_get_notmine (api : List Str → Except String Str) (bs : Nat) (k : Str) :
    ∀ (rest : List (Str × Str)) (batch batchKeys : List Str) (acc out : OMap),
    k ∉ batchKeys → (∀ p ∈ rest, p.1 ≠ k) →
    tjvLoop api bs rest batch batchKeys acc = .ok out →
    OMap.get out k = OMap.get acc k := by
  intro rest
  induction rest with
  | nil =>
    intro batch batchKeys acc out hbk _ h
    simp only [tjvLoop] at h
    by_cases hb : batch.length > 0
    · rw [if_pos hb] at h
      cases htt : translateText api batch with
      | error e => rw [htt] at h; cases h
      | ok tb =>
        rw [htt] at h
        dsimp only at h
        injection h with h'
        rw [← h']
        exact flushBatch_get_ne batchKeys tb acc k hbk
    · rw [if_neg hb] at h
      injection h with h'
      rw [← h']
  | cons q rest' ih =>
    intro batch batchKeys acc out hbk hrest h
    obtain ⟨key, value⟩ := q
    have hkey : key ≠ k := hrest (key, value) (by simp)
    simp only [tjvLoop] at h
    by_cases hfl : (batch ++ [goReplaceAll value nlStr newlinePlaceholder]).length = bs
    · rw [if_pos hfl] at h
      cases htt : translateText api (batch ++ [goReplaceAll value nlStr newlinePlaceholder]) with
      | error e => rw [htt] at h; cases h
      | ok tb =>
        rw [htt] at h
        dsimp only at h
        have hstep := ih [] [] (flushBatch acc (batchKeys ++ [key]) tb) out (by simp)
          (fun q hq => hrest q (List.mem_cons_of_mem _ hq)) h
        rw [hstep]
        apply flushBatch_get_ne
        intro hmem
        rcases List.mem_append.mp hmem with hmem | hmem
        · exact hbk hmem
        · simp only [List.mem_cons, List.not_mem_nil, or_false] at hmem
          exact hkey hmem.symm
    · rw [if_neg hfl] at h
      refine ih _ _ acc out ?_ (fun q hq => hrest q (List.mem_cons_of_mem _ hq)) h
      intro hmem
      rcases List.mem_append.mp hmem with hmem | hmem
      · exact hbk hmem
      · simp only [List.mem_cons, List.not_mem_nil, or_false] at hmem
        exact hkey hmem.symm

/-- Through the whole batching loop, a blank, newline-free value is carried
to the output store unchanged under its key. -/
theorem tjvLoop_blank (api : List Str → Except String Str) (bs : Nat) (k v : Str)
    (hbl : goTrimSpace v = []) (hnl : '\n' ∉ v) :
    ∀ (rest pend : List (Str × Str)) (acc out : OMap),
    ((pend ++ rest).map Prod.fst).Nodup →
    (k, v) ∈ pend ++ rest →
    tjvLoop api bs rest (pend.map fun p => goReplaceAll p.2 nlStr newlinePlaceholder)
      (pend.map Prod.fst) acc = .ok out →
    OMap.get out k = some v := by
  intro rest
  induction rest with
  | nil =>
    intro pend acc out hnodup hmem h
    rw [List.append_nil] at hnodup hmem
    simp only [tjvLoop] at h
    by_cases hb : (pend.map fun p => goReplaceAll p.2 nlStr newlinePlaceholder).length > 0
    · rw [if_pos hb] at h
      cases htt : translateText api
          (pend.map fun p => goReplaceAll p.2 nlStr newlinePlaceholder) with
      | error e => rw [htt] at h; cases h
      | ok tb =>
        rw [htt] at h
        dsimp only at h
        injection h with h'
        rw [← h']
        exact flush_blank_get api pend acc tb k v hnodup hmem hbl hnl htt
    · rw [if_neg hb] at h
      have hpend : pend = [] := by
        rcases pend with _ | ⟨p0, pend'⟩
        · rfl
        · simp at hb
      subst hpend
      cases hmem
  | cons q rest' ih =>
    intro pend acc out hnodup hmem h
    obtain ⟨key, value⟩ := q
    have hshape : pend ++ (key, value) :: rest' = (pend ++ [(key, value)]) ++ rest' := by
      simp
    simp only [tjvLoop] at h
    have hbshape : (pend.map fun p => goReplaceAll p.2 nlStr newlinePlaceholder)
        ++ [goReplaceAll value nlStr newlinePlaceholder]
        = (pend ++ [(key, value)]).map fun p => goReplaceAll p.2 nlStr newlinePlaceholder := by
      simp
    have hkshape : pend.map Prod.fst ++ [key] = (pend ++ [(key, value)]).map Prod.fst := by
      simp
    by_cases hfl : ((pend.map fun p => goReplaceAll p.2 nlStr newlinePlaceholder)
        ++ [goReplaceAll value nlStr newlinePlaceholder]).length = bs
    · rw [if_pos hfl] at h
      cases htt : translateText api
          ((pend.map fun p => goReplaceAll p.2 nlStr newlinePlaceholder)
            ++ [goReplaceAll value nlStr newlinePlaceholder]) with
      | error e => rw [htt] at h; cases h
      | ok tb =>
        rw [htt] at h
        dsimp only at h
        rw [hbshape] at htt
        rw [hkshape] at h
        have hnodup' : ((pend ++ [(key, value)]).map Prod.fst).Nodup ∧
            ∀ x ∈ (pend ++ [(key, value)]).map Prod.fst, x ∉ rest'.map Prod.fst := by
          rw [hshape] at hnodup
          rw [List.map_append] at hnodup
          rw [List.nodup_append] at hnodup
          exact ⟨hnodup.1, fun x hx hx' => hnodup.2.2 hx hx'⟩
        by_cases hin : (k, v) ∈ pend ++ [(key, value)]
        · have hflush : OMap.get (flushBatch acc ((pend ++ [(key, value)]).map Prod.fst) tb) k
              = some v :=
            flush_blank_get api _ acc tb k v hnodup'.1 hin hbl hnl htt
          have hpres := tjvLoop_get_notmine api bs k rest' [] []
            (flushBatch acc ((pend ++ [(key, value)]).map Prod.fst) tb) out (by simp) ?_ h
          · rw [hpres, hflush]
          · intro q hq hqk
            have hkmem : k ∈ (pend ++ [(key, value)]).map Prod.fst :=
              List.mem_map_of_mem Prod.fst hin
            exact hnodup'.2 k hkmem (hqk ▸ List.mem_map_of_mem Prod.fst hq)
        · have hmem' : (k, v) ∈ rest' := by
            rcases List.mem_append.mp hmem with hm | hm
            · exact absurd (List.mem_append.mpr (Or.inl hm)) hin
            · rcases List.mem_cons.mp hm with hm | hm
              · exact absurd (List.mem_append.mpr (Or.inr (by simp [hm]))) hin
              · exact hm
          refine ih [] (flushBatch acc ((pend ++ [(key, value)]).map Prod.fst) tb) out ?_
            (by simpa using hmem') ?_
          · rw [hshape, List.map_append, List.nodup_append] at hnodup
            simpa using hnodup.2.1
          · simpa using h
    · rw [if_neg hfl] at h
      refine ih (pend ++ [(key, value)]) acc out ?_ ?_ ?_
      · rw [← hshape]; exact hnodup
      · rw [← hshape]; exact hmem
      · rw [hbshape, hkshape] at h
        exact h

/-- The batching loop under the identity-translation stub: every entry comes
out bound to the unprotect-of-protect image of its value, in order. -/
theorem tjvLoop_id (bs : Nat) :
    ∀ (rest pend : List (Str × Str)) (acc : OMap),
    (∀ p ∈ pend ++ rest, goTrimSpace (goReplaceAll p.2 nlStr newlinePlaceholder)
      = goReplaceAll p.2 nlStr newlinePlaceholder) →
    (keysOf acc ++ (pend ++ rest).map Prod.fst).Nodup →
    tjvLoop idApi bs rest (pend.map fun p => goReplaceAll p.2 nlStr newlinePlaceholder)
      (pend.map Prod.fst) acc =
      .ok (acc ++ (pend ++ rest).map fun p =>
        (p.1, goReplaceAll (goReplaceAll p.2 nlStr newlinePlaceholder)
          newlinePlaceholder nlStr)) := by
  intro rest
  induction rest with
  | nil =>
    intro pend acc htrim hnodup
    rw [List.append_nil] at htrim hnodup
    rw [List.append_nil]
    simp only [tjvLoop]
    cases pend with
    | nil => simp
    | cons p0 pend' =>
      rw [if_pos (by simp)]
      have hid : translateText idApi
          ((p0 :: pend').map fun p => goReplaceAll p.2 nlStr newlinePlaceholder)
          = .ok ((p0 :: pend').map fun p => goReplaceAll p.2 nlStr newlinePlaceholder) := by
        apply translateText_id
        intro t ht
        rcases List.mem_map.mp ht with ⟨q, hq, hqt⟩
        subst hqt
        exact ⟨nl_not_mem_forward q.2, htrim q hq⟩
      rw [hid]
      dsimp only
      congr 1
      rw [List.nodup_append] at hnodup
      rw [flushBatch_append _ _ _ (by simp) ?fresh ?nodup]
      · rw [List.zip_map', List.map_map]
        rfl
      case fresh =>
        intro x hx
        exact fun hacc => hnodup.2.2 hacc hx
      case nodup => exact hnodup.2.1
  | cons q rest' ih =>
    intro pend acc htrim hnodup
    obtain ⟨key, value⟩ := q
    have hshape : pend ++ (key, value) :: rest' = (pend ++ [(key, value)]) ++ rest' := by
      simp
    have hbshape : (pend.map fun p => goReplaceAll p.2 nlStr newlinePlaceholder)
        ++ [goReplaceAll value nlStr newlinePlaceholder]
        = (pend ++ [(key, value)]).map fun p => goReplaceAll p.2 nlStr newlinePlaceholder := by
      simp
    have hkshape : pend.map Prod.fst ++ [key] = (pend ++ [(key, value)]).map Prod.fst := by
      simp
    simp only [tjvLoop]
    by_cases hfl : ((pend.map fun p => goReplaceAll p.2 nlStr newlinePlaceholder)
        ++ [goReplaceAll value nlStr newlinePlaceholder]).length = bs
    · rw [if_pos hfl]
      rw [hbshape, hkshape]
      have hid : translateText idApi
          ((pend ++ [(key, value)]).map fun p => goReplaceAll p.2 nlStr newlinePlaceholder)
          = .ok ((pend ++ [(key, value)]).map
            fun p => goReplaceAll p.2 nlStr newlinePlaceholder) := by
        apply translateText_id
        intro t ht
        rcases List.mem_map.mp ht with ⟨q, hq, hqt⟩
        subst hqt
        refine ⟨nl_not_mem_forward q.2, htrim q ?_⟩
        rw [hshape]
        exact List.mem_append.mpr (Or.inl hq)
      rw [hid]
      dsimp only
      have hnodup' := hnodup
      rw [hshape, List.map_append, ← List.append_assoc, List.nodup_append] at hnodup'
      have hflush : flushBatch acc ((pend ++ [(key, value)]).map Prod.fst)
          ((pend ++ [(key, value)]).map fun p => goReplaceAll p.2 nlStr newlinePlaceholder)
          = acc ++ (pend ++ [(key, value)]).map fun p =>
            (p.1, goReplaceAll (goReplaceAll p.2 nlStr newlinePlaceholder)
              newlinePlaceholder nlStr) := by
        rw [flushBatch_append _ _ _ (by simp) ?fresh ?nodup]
        · rw [List.zip_map', List.map_map]
          rfl
        case fresh =>
          intro x hx hacc
          have hxl : x ∈ keysOf acc ++ (pend ++ [(key, value)]).map Prod.fst :=
            List.mem_append.mpr (Or.inl hacc)
          have hxr : x ∈ (pend ++ [(key, value)]).map Prod.fst := hx
          have := hnodup'.1
          rw [List.nodup_append] at this
          exact this.2.2 hacc hxr
        case nodup =>
          have := hnodup'.1
          rw [List.nodup_append] at this
          exact this.2.1
      rw [hflush]
      have happly := ih [] (acc ++ (pend ++ [(key, value)]).map fun p =>
          (p.1, goReplaceAll (goReplaceAll p.2 nlStr newlinePlaceholder)
            newlinePlaceholder nlStr)) ?_ ?_
      · simp only [List.map_nil, List.nil_append] at happly
        rw [happly, hshape]
        simp [List.map_append, List.append_assoc]
      · intro p hp
        refine htrim p ?_
        rw [hshape]
        exact List.mem_append.mpr (Or.inr (by simpa using hp))
      · simp only [List.nil_append]
        rw [keysOf, List.map_append, List.map_map]
        have hfst : (List.map (Prod.fst ∘ fun p : Str × Str =>
            (p.1, goReplaceAll (goReplaceAll p.2 nlStr newlinePlaceholder)
              newlinePlaceholder nlStr)) (pend ++ [(key, value)]))
            = (pend ++ [(key, value)]).map Prod.fst := by
          apply List.map_congr_left
          intro a _
          rfl
        rw [hfst, List.append_assoc]
        rw [hshape, List.map_append, ← List.append_assoc] at hnodup
        rw [← List.append_assoc]
        exact hnodup
    · rw [if_neg hfl]
      rw [hbshape, hkshape]
      have happly := ih (pend ++ [(key, value)]) acc ?_ ?_
      · rw [happly, hshape, List.append_assoc]
      · intro p hp
        refine htrim p ?_
        rw [hshape]
        simpa using hp
      · rw [hshape, List.append_assoc] at hnodup
        rw [List.append_assoc]
        exact hnodup

/-- The batching loop preserves key order: on success the output store's
keys are the processed keys in their original order. -/
theorem tjvLoop_keys (api : List Str → Except String Str) (bs : Nat) :
    ∀ (rest pend : List (Str × Str)) (acc out : OMap),
    (keysOf acc ++ (pend ++ rest).map Prod.fst).Nodup →
    tjvLoop api bs rest (pend.map fun p => goReplaceAll p.2 nlStr newlinePlaceholder)
      (pend.map Prod.fst) acc = .ok out →
    keysOf out = keysOf acc ++ (pend ++ rest).map Prod.fst := by
  intro rest
  induction rest with
  | nil =>
    intro pend acc out hnodup h
    rw [List.append_nil] at hnodup ⊢
    simp only [tjvLoop] at h
    by_cases hb : (pend.map fun p => goReplaceAll p.2 nlStr newlinePlaceholder).length > 0
    · rw [if_pos hb] at h
      cases htt : translateText api
          (pend.map fun p => goReplaceAll p.2 nlStr newlinePlaceholder) with
      | error e => rw [htt] at h; cases h
      | ok tb =>
        rw [htt] at h
        dsimp only at h
        injection h with h'
        have hlen : tb.length = pend.length :=
          (translateText_ok_length api _ tb htt).trans (by simp)
        rw [List.nodup_append] at hnodup
        rw [← h', flushBatch_append _ _ _ (by simp [hlen]) ?fresh ?nodup]
        · simp only [keysOf, List.map_append, List.map_map]
          congr 1
          rw [show (Prod.fst ∘ fun p : Str × Str =>
              (p.1, goReplaceAll p.2 newlinePlaceholder nlStr)) = Prod.fst from rfl]
          rw [List.map_fst_zip _ _ (by simp [hlen])]
        case fresh =>
          intro x hx hacc
          exact hnodup.2.2 hacc hx
        case nodup => exact hnodup.2.1
    · rw [if_neg hb] at h
      have hpend : pend = [] := by
        rcases pend with _ | ⟨p0, pend'⟩
        · rfl
        · simp at hb
      subst hpend
      injection h with h'
      rw [← h']
      simp
  | cons q rest' ih =>
    intro pend acc out hnodup h
    obtain ⟨key, value⟩ := q
    have hshape : pend ++ (key, value) :: rest' = (pend ++ [(key, value)]) ++ rest' := by
      simp
    have hbshape : (pend.map fun p => goReplaceAll p.2 nlStr newlinePlaceholder)
        ++ [goReplaceAll value nlStr newlinePlaceholder]
        = (pend ++ [(key, value)]).map fun p => goReplaceAll p.2 nlStr newlinePlaceholder := by
      simp
    have hkshape : pend.map Prod.fst ++ [key] = (pend ++ [(key, value)]).map Prod.fst := by
      simp
    simp only [tjvLoop] at h
    by_cases hfl : ((pend.map fun p => goReplaceAll p.2 nlStr newlinePlaceholder)
        ++ [goReplaceAll value nlStr newlinePlaceholder]).length = bs
    · rw [if_pos hfl] at h
      cases htt : translateText api
          ((pend.map fun p => goReplaceAll p.2 nlStr newlinePlaceholder)
            ++ [goReplaceAll value nlStr newlinePlaceholder]) with
      | error e => rw [htt] at h; cases h
      | ok tb =>
        rw [htt] at h
        dsimp only at h
        rw [hbshape] at htt
        rw [hkshape] at h
        have hnodup' := hnodup
        rw [hshape, List.map_append, ← List.append_assoc, List.nodup_append] at hnodup'
        have hlen : tb.length = (pend ++ [(key, value)]).length :=
          (translateText_ok_length api _ tb htt).trans (by simp)
        have hflkeys : keysOf (flushBatch acc ((pend ++ [(key, value)]).map Prod.fst) tb)
            = keysOf acc ++ (pend ++ [(key, value)]).map Prod.fst := by
          rw [flushBatch_append _ _ _ (by simp [hlen]) ?fresh ?nodup]
          · simp only [keysOf, List.map_append, List.map_map]
            congr 1
            rw [show (Prod.fst ∘ fun p : Str × Str =>
                (p.1, goReplaceAll p.2 newlinePlaceholder nlStr)) = Prod.fst from rfl]
            rw [List.map_fst_zip _ _ (by simp [hlen])]
          case fresh =>
            intro x hx hacc
            have := hnodup'.1
            rw [List.nodup_append] at this
            exact this.2.2 hacc hx
          case nodup =>
            have := hnodup'.1
            rw [List.nodup_append] at this
            exact this.2.1
        have hstep := ih [] (flushBatch acc ((pend ++ [(key, value)]).map Prod.fst) tb) out
          ?_ (by simpa using h)
        · rw [hstep, hflkeys, hshape]
          simp [List.map_append, List.append_assoc]
        · rw [hflkeys]
          simp only [List.nil_append]
          rw [hshape, List.map_append, ← List.append_assoc] at hnodup
          exact hnodup
    · rw [if_neg hfl] at h
      rw [hbshape, hkshape] at h
      have hstep := ih (pend ++ [(key, value)]) acc out ?_ h
      · rw [hstep, hshape, List.append_assoc]
      · rw [hshape, List.append_assoc] at hnodup
        rw [List.append_assoc]
        exact hnodup

/-- `translateJSONValues` with the identity stub maps every value through
protect-then-unprotect, preserving keys and order. -/
theorem translateJSONValues_id (data : OMap) (bs : Nat) (hnodup : nodupKeys data)
    (htrim : ∀ p ∈ data, goTrimSpace (goReplaceAll p.2 nlStr newlinePlaceholder)
      = goReplaceAll p.2 nlStr newlinePlaceholder) :
    translateJSONValues idApi data bs = .ok (data.map fun p =>
      (p.1, goReplaceAll (goReplaceAll p.2 nlStr newlinePlaceholder)
        newlinePlaceholder nlStr)) := by
  have := tjvLoop_id bs data [] [] (by simpa using htrim)
    (by simpa [keysOf] using hnodup)
  simpa [translateJSONValues] using this

/-- A blank, newline-free value reaches the output store of
`translateJSONValues` unchanged under its key. -/
theorem translateJSONValues_blank (api : List Str → Except String Str) (data : OMap)
    (bs : Nat) (k v : Str) (out : OMap) (hnodup : nodupKeys data) (hmem : (k, v) ∈ data)
    (hbl : goTrimSpace v = []) (hnl : '\n' ∉ v)
    (h : translateJSONValues api data bs = .ok out) : OMap.get out k = some v := by
  apply tjvLoop_blank api bs k v hbl hnl data [] [] out
  · simpa [keysOf] using hnodup
  · simpa using hmem
  · simpa [translateJSONValues] using h

/-- On success, `translateJSONValues` returns a store with exactly the input
keys in the input order. -/
theorem translateJSONValues_keys (api : List Str → Except String Str) (data : OMap)
    (bs : Nat) (out : OMap) (hnodup : nodupKeys data)
    (h : translateJSONValues api data bs = .ok out) : keysOf out = keysOf data := by
  have := tjvLoop_keys api bs data [] [] out (by simpa [keysOf] using hnodup)
    (by simpa [translateJSONValues] using h)
  simpa [keysOf] using this

theorem nth_lt_length : ∀ (l : List α) (n : Nat) (a : α), nth l n = some a →
    n < l.length := by
  intro l
  induction l with
  | nil => intro n a h; simp [nth] at h
  | cons x xs ih =>
    intro n a h
    cases n with
    | zero => simp
    | succ m =>
      simp only [List.length_cons]
      exact Nat.succ_lt_succ (ih m a h)

theorem nth_setIdx_self : ∀ (l : List α) (i : Nat) (b : α), i < l.length →
    nth (setIdx l i b) i = some b := by
  intro l
  induction l with
  | nil => intro i b h; simp at h
  | cons x xs ih =>
    intro i b h
    cases i with
    | zero => rfl
    | succ m =>
      simp only [List.length_cons] at h
      exact ih m b (by omega)

theorem foldl_setIdx_nth_at (g : Nat × Str → Str) :
    ∀ (pairs : List (Nat × Str)) (l : List Str) (i : Nat) (x : Str),
    (pairs.map Prod.fst).Nodup → (i, x) ∈ pairs → i < l.length →
    nth (pairs.foldl (fun a p => setIdx a p.1 (g p)) l) i = some (g (i, x)) := by
  intro pairs
  induction pairs with
  | nil => intro l i x _ hmem _; cases hmem
  | cons p rest ih =>
    intro l i x hnodup hmem hlt
    simp only [List.map_cons, List.nodup_cons] at hnodup
    simp only [List.foldl_cons]
    rcases List.mem_cons.mp hmem with hmem | hmem
    · have hp : p = (i, x) := hmem.symm
      subst hp
      rw [foldl_setIdx_nth_ne]
      · exact nth_setIdx_self l i (g (i, x)) hlt
      · intro q hq hqi
        apply hnodup.1
        rw [← hqi]
        show q.1 ∈ List.map Prod.fst rest
        exact List.mem_map_of_mem Prod.fst hq
    · exact ih _ i x hnodup.2 hmem (by rwa [length_setIdx])

theorem nth_zip_nth : ∀ (l1 : List α) (l2 : List β) (n : Nat) (a : α) (b : β),
    nth l1 n = some a → nth l2 n = some b → nth (l1.zip l2) n = some (a, b) := by
  intro l1
  induction l1 with
  | nil => intro l2 n a b h _; simp [nth] at h
  | cons x xs ih =>
    intro l2 n a b h1 h2
    cases l2 with
    | nil => simp [nth] at h2
    | cons y ys =>
      cases n with
      | zero =>
        simp only [nth, Option.some.injEq] at h1 h2
        simp [List.zip_cons_cons, nth, h1, h2]
      | succ m =>
        simp only [nth] at h1 h2
        exact ih ys m a b h1 h2

theorem nonEmptyIdx_lb : ∀ (ts : List Str) (i : Nat) (p : Nat × Str),
    p ∈ nonEmptyIdx i ts → i ≤ p.1 := by
  intro ts i p h
  exact (nonEmptyIdx_mem ts i p h).1

theorem nonEmptyIdx_fst_nodup : ∀ (ts : List Str) (i : Nat),
    ((nonEmptyIdx i ts).map Prod.fst).Nodup := by
  intro ts
  induction ts with
  | nil => intro i; simp [nonEmptyIdx]
  | cons t ts' ih =>
    intro i
    simp only [nonEmptyIdx]
    by_cases hb : goTrimSpace t ≠ []
    · rw [if_pos hb]
      simp only [List.map_cons, List.nodup_cons]
      refine ⟨?_, ih (i + 1)⟩
      intro hmem
      rcases List.mem_map.mp hmem with ⟨q, hq, hqi⟩
      have := nonEmptyIdx_lb ts' (i + 1) q hq
      omega
    · rw [if_neg hb]
      exact ih (i + 1)

/-- The main success branch of `translateText`, position by position: the
`j`-th returned line lands (trimmed) at the position of the `j`-th non-blank
input, and all other positions keep their original values. -/
theorem translateText_ok_positions (api : List Str → Except String Str)
    (texts : List Str) (content : Str) (hsome : nonEmptyIdx 0 texts ≠ [])
    (hapi : api (sentTexts texts) = .ok content)
    (hlen : (splitOnNL content).length = (nonEmptyIdx 0 texts).length) :
    ∃ r, translateText api texts = .ok r ∧ r.length = texts.length ∧
      (∀ (j : Nat) (p : Nat × Str) (l : Str), nth (nonEmptyIdx 0 texts) j = some p →
        nth (splitOnNL content) j = some l →
        nth r p.1 = some (cleanTranslation (cleanTranslation l))) ∧
      (∀ (j : Nat) (v : Str), nth texts j = some v →
        (∀ p ∈ nonEmptyIdx 0 texts, p.1 ≠ j) → nth r j = some v) := by
  refine ⟨_, translateText_ok_char api texts content hsome hapi hlen, ?_, ?_, ?_⟩
  · rw [foldl_setIdx_length]
  · intro j p l hp hl
    have hkey : nth ((nonEmptyIdx 0 texts).map Prod.fst) j = some p.1 :=
      nth_map Prod.fst _ j p hp
    have hline : nth ((splitOnNL content).map cleanTranslation) j
        = some (cleanTranslation l) := nth_map cleanTranslation _ j l hl
    have hpair : nth (((nonEmptyIdx 0 texts).map Prod.fst).zip
        ((splitOnNL content).map cleanTranslation)) j
        = some (p.1, cleanTranslation l) := nth_zip_nth _ _ j _ _ hkey hline
    have hmem := nth_mem _ _ _ hpair
    have hnodup : ((((nonEmptyIdx 0 texts).map Prod.fst).zip
        ((splitOnNL content).map cleanTranslation)).map Prod.fst).Nodup := by
      rw [List.map_fst_zip _ _ (by simp [hlen])]
      exact nonEmptyIdx_fst_nodup texts 0
    have hbound : p.1 < texts.length := by
      obtain ⟨_, hn, _⟩ := nonEmptyIdx_mem texts 0 p (nth_mem _ _ _ hp)
      rw [Nat.sub_zero] at hn
      exact nth_lt_length texts p.1 p.2 hn
    exact foldl_setIdx_nth_at _ _ texts p.1 (cleanTranslation l) hnodup hmem hbound
  · intro j v hv hne
    rw [foldl_setIdx_nth_ne]
    · exact hv
    · intro q hq
      have hfst : q.1 ∈ (nonEmptyIdx 0 texts).map Prod.fst := (List.of_mem_zip hq).1
      rcases List.mem_map.mp hfst with ⟨p, hp, hpq⟩
      exact hpq ▸ hne p hp


theorem exceptMap_ok {ε α β : Type} {e : Except ε α} {g : α → β} {y : β}
    (h : e.map g = .ok y) : ∃ x, e = .ok x ∧ y = g x := by
  cases e with
  | error err => simp [Except.map] at h
  | ok a =>
    refine ⟨a, rfl, ?_⟩
    simp only [Except.map, Except.ok.injEq] at h
    exact h.symm

theorem hex4_length : ∀ (s : Str) (n : Nat) (r : Str), hex4 s = some (n, r) →
    s.length = r.length + 4 := by
  intro s n r h
  match s with
  | [] => simp [hex4] at h
  | [a] => simp [hex4] at h
  | [a, b] => simp [hex4] at h
  | [a, b, c] => simp [hex4] at h
  | a :: b :: c :: d :: rest =>
    simp only [hex4] at h
    split at h
    · simp only [Option.some.injEq, Prod.mk.injEq] at h
      rw [← h.2]
      simp
    · cases h

theorem lowSurrogate_length : ∀ (s : Str) (n2 : Nat) (r : Str),
    lowSurrogate s = some (n2, r) → s.length = r.length + 6 := by
  intro s n2 r h
  match s with
  | [] => simp [lowSurrogate] at h
  | [c] => simp [lowSurrogate] at h
  | c1 :: c2 :: more =>
    simp only [lowSurrogate] at h
    by_cases hcc : c1 = '\\' ∧ c2 = 'u'
    · rw [if_pos hcc] at h
      cases hh : hex4 more with
      | none => rw [hh] at h; cases h
      | some p =>
        obtain ⟨m, r3⟩ := p
        rw [hh] at h
        dsimp only at h
        split at h
        · simp only [Option.some.injEq, Prod.mk.injEq] at h
          obtain ⟨h1, h2⟩ := h
          subst h2
          have := hex4_length more m r3 hh
          simp only [List.length_cons]
          omega
        · cases h
    · rw [if_neg hcc] at h; cases h

theorem lexStringAux_consume : ∀ (f : Nat) (s v r : Str),
    lexStringAux f s = .ok (v, r) → r.length ≤ s.length := by
  intro f
  induction f with
  | zero =>
    intro s v r h
    cases s with
    | nil => simp [lexStringAux] at h
    | cons c rest => simp [lexStringAux] at h
  | succ fuel ih =>
    intro s v r h
    cases s with
    | nil => simp [lexStringAux] at h
    | cons c rest =>
      simp only [lexStringAux] at h
      by_cases hq : c = '"'
      · rw [if_pos hq] at h
        simp only [Except.ok.injEq, Prod.mk.injEq] at h
        rw [← h.2]
        simp
      · rw [if_neg hq] at h
        by_cases hb : c = '\\'
        · rw [if_pos hb] at h
          cases rest with
          | nil => cases h
          | cons e rest2 =>
            dsimp only at h
            by_cases hu : e = 'u'
            · rw [if_pos hu] at h
              cases hh : hex4 rest2 with
              | none => rw [hh] at h; cases h
              | some p =>
                obtain ⟨n, rest3⟩ := p
                rw [hh] at h
                dsimp only at h
                have hlen3 : rest2.length = rest3.length + 4 := hex4_length rest2 n rest3 hh
                by_cases hsur : 0xD800 ≤ n ∧ n < 0xE000
                · rw [if_pos hsur] at h
                  cases hls : lowSurrogate rest3 with
                  | none =>
                    rw [hls] at h
                    rcases exceptMap_ok h with ⟨⟨v2, r2⟩, hrec, hy⟩
                    have := ih _ _ _ hrec
                    simp only [Prod.mk.injEq] at hy
                    simp only [List.length_cons]
                    rw [hy.2]
                    omega
                  | some p2 =>
                    obtain ⟨n2, rest4⟩ := p2
                    rw [hls] at h
                    dsimp only at h
                    have hlen4 : rest3.length = rest4.length + 6 :=
                      lowSurrogate_length rest3 n2 rest4 hls
                    split at h
                    · rcases exceptMap_ok h with ⟨⟨v2, r2⟩, hrec, hy⟩
                      have := ih _ _ _ hrec
                      simp only [Prod.mk.injEq] at hy
                      simp only [List.length_cons]
                      rw [hy.2]
                      omega
                    · rcases exceptMap_ok h with ⟨⟨v2, r2⟩, hrec, hy⟩
                      have := ih _ _ _ hrec
                      simp only [Prod.mk.injEq] at hy
                      simp only [List.length_cons]
                      rw [hy.2]
                      omega
                · rw [if_neg hsur] at h
                  rcases exceptMap_ok h with ⟨⟨v2, r2⟩, hrec, hy⟩
                  have := ih _ _ _ hrec
                  simp only [Prod.mk.injEq] at hy
                  simp only [List.length_cons]
                  rw [hy.2]
                  omega
            · rw [if_neg hu] at h
              cases hesc : escCharOf e with
              | none => rw [hesc] at h; cases h
              | some d =>
                rw [hesc] at h
                dsimp only at h
                rcases exceptMap_ok h with ⟨⟨v2, r2⟩, hrec, hy⟩
                have := ih _ _ _ hrec
                simp only [Prod.mk.injEq] at hy
                simp only [List.length_cons]
                rw [hy.2]
                omega
        · rw [if_neg hb] at h
          by_cases hctl : c.toNat < 0x20
          · rw [if_pos hctl] at h; cases h
          · rw [if_neg hctl] at h
            rcases exceptMap_ok h with ⟨⟨v2, r2⟩, hrec, hy⟩
            have := ih _ _ _ hrec
            simp only [Prod.mk.injEq] at hy
            simp only [List.length_cons]
            rw [hy.2]
            omega

theorem jsonTokensAux_fuel_irrel : ∀ (f1 f2 : Nat) (s : Str),
    s.length ≤ f1 → s.length ≤ f2 → jsonTokensAux f1 s = jsonTokensAux f2 s := by
  intro f1
  induction f1 with
  | zero =>
    intro f2 s hs1 _
    have hnil : s = [] := List.length_eq_zero.mp (Nat.le_zero.mp hs1)
    subst hnil
    cases f2 <;> rfl
  | succ n ih =>
    intro f2 s hs1 hs2
    cases s with
    | nil => cases f2 <;> rfl
    | cons c rest =>
      cases f2 with
      | zero => simp at hs2
      | succ m =>
        simp only [jsonTokensAux]
        simp only [List.length_cons] at hs1 hs2
        by_cases h1 : (c = ' ' || c = '\t' || c = '\n' || c = '\r') = true
        · rw [if_pos h1, if_pos h1]
          exact ih m rest (by omega) (by omega)
        · rw [if_neg h1, if_neg h1]
          by_cases h2 : (c = ',' || c = ':') = true
          · rw [if_pos h2, if_pos h2]
            exact ih m rest (by omega) (by omega)
          · rw [if_neg h2, if_neg h2]
            by_cases h3 : c = '{'
            · rw [if_pos h3, if_pos h3, ih m rest (by omega) (by omega)]
            · rw [if_neg h3, if_neg h3]
              by_cases h4 : c = '}'
              · rw [if_pos h4, if_pos h4, ih m rest (by omega) (by omega)]
              · rw [if_neg h4, if_neg h4]
                by_cases h5 : c = '['
                · rw [if_pos h5, if_pos h5, ih m rest (by omega) (by omega)]
                · rw [if_neg h5, if_neg h5]
                  by_cases h6 : c = ']'
                  · rw [if_pos h6, if_pos h6, ih m rest (by omega) (by omega)]
                  · rw [if_neg h6, if_neg h6]
                    by_cases h7 : c = '"'
                    · rw [if_pos h7, if_pos h7]
                      cases hlex : lexStringAux rest.length rest with
                      | error e => rfl
                      | ok p =>
                        obtain ⟨str, rest2⟩ := p
                        dsimp only
                        have hcon : rest2.length ≤ rest.length :=
                          lexStringAux_consume _ _ _ _ hlex
                        rw [ih m rest2 (by omega) (by omega)]
                    · rw [if_neg h7, if_neg h7]
                      by_cases h8 : isNumChar c = true
                      · rw [if_pos h8, if_pos h8]
                        have hdw : (rest.dropWhile isNumChar).length ≤ rest.length :=
                          (List.dropWhile_sublist isNumChar).length_le
                        rw [ih m (rest.dropWhile isNumChar) (by omega) (by omega)]
                      · rw [if_neg h8, if_neg h8]
                        cases hdt : dropPat "true".data (c :: rest) with
                        | some r =>
                          dsimp only
                          have hr : rest.length + 1 = 4 + r.length := by
                            have hc := congrArg List.length (dropPat_eq_some _ _ _ hdt)
                            simp only [List.length_cons, List.length_append,
                              show ("true".data).length = 4 from by decide] at hc
                            omega
                          rw [ih m r (by omega) (by omega)]
                        | none =>
                          dsimp only
                          cases hdf : dropPat "false".data (c :: rest) with
                          | some r =>
                            dsimp only
                            have hr : rest.length + 1 = 5 + r.length := by
                              have hc := congrArg List.length (dropPat_eq_some _ _ _ hdf)
                              simp only [List.length_cons, List.length_append,
                                show ("false".data).length = 5 from by decide] at hc
                              omega
                            rw [ih m r (by omega) (by omega)]
                          | none =>
                            dsimp only
                            cases hdn : dropPat "null".data (c :: rest) with
                            | some r =>
                              dsimp only
                              have hr : rest.length + 1 = 4 + r.length := by
                                have hc := congrArg List.length (dropPat_eq_some _ _ _ hdn)
                                simp only [List.length_cons, List.length_append,
                                  show ("null".data).length = 4 from by decide] at hc
                                omega
                              rw [ih m r (by omega) (by omega)]
                            | none => rfl

theorem hexVal_hexDigitLower : ∀ k < 16, hexVal (hexDigitLower k) = some k := by decide

theorem hex4_00 (k1 k2 : Nat) (X : Str) (h1 : k1 < 16) (h2 : k2 < 16) :
    hex4 ('0' :: '0' :: hexDigitLower k1 :: hexDigitLower k2 :: X)
      = some (k1 * 16 + k2, X) := by
  simp only [hex4, show hexVal '0' = some 0 from by decide,
    hexVal_hexDigitLower k1 h1, hexVal_hexDigitLower k2 h2]
  norm_num

theorem hex4_2028 (X : Str) : hex4 ('2' :: '0' :: '2' :: '8' :: X) = some (0x2028, X) := rfl

theorem hex4_2029 (X : Str) : hex4 ('2' :: '0' :: '2' :: '9' :: X) = some (0x2029, X) := rfl

theorem lexStringAux_short_escape (e d : Char) (X rest' v' : Str) (f : Nat)
    (he : e ≠ 'u') (hesc : escCharOf e = some d)
    (hrec : lexStringAux f X = .ok (v', rest')) :
    lexStringAux (f + 1) ('\\' :: e :: X) = .ok (d :: v', rest') := by
  simp only [lexStringAux]
  rw [if_pos trivial, if_neg he, hesc]
  dsimp only
  rw [hrec]
  rfl

theorem lexStringAux_lit (c : Char) (X rest' v' : Str) (f : Nat)
    (h1 : c ≠ '"') (h2 : c ≠ '\\') (h3 : ¬(c.toNat < 0x20))
    (hrec : lexStringAux f X = .ok (v', rest')) :
    lexStringAux (f + 1) (c :: X) = .ok (c :: v', rest') := by
  simp only [lexStringAux]
  rw [if_neg h1, if_neg h2, if_neg h3, hrec]
  rfl

theorem lexStringAux_u (n : Nat) (d1 d2 d3 d4 : Char) (X rest' v' : Str) (f : Nat)
    (hh : hex4 (d1 :: d2 :: d3 :: d4 :: X) = some (n, X))
    (hns : ¬(0xD800 ≤ n ∧ n < 0xE000))
    (hrec : lexStringAux f X = .ok (v', rest')) :
    lexStringAux (f + 1) ('\\' :: 'u' :: d1 :: d2 :: d3 :: d4 :: X)
      = .ok (Char.ofNat n :: v', rest') := by
  simp only [lexStringAux]
  rw [if_pos trivial, if_pos trivial, hh]
  dsimp only
  rw [if_neg hns, hrec]
  rfl

theorem escapeChar_ctl (c : Char) (h1 : c ≠ '"') (h2 : c ≠ '\\') (h3 : c ≠ '\n')
    (h4 : c ≠ '\r') (h5 : c ≠ '\t') (h6 : c.toNat < 0x20) :
    escapeChar c = ['\\', 'u', '0', '0', hexDigitLower (c.toNat / 16),
      hexDigitLower (c.toNat % 16)] := by
  unfold escapeChar
  rw [if_neg h1, if_neg h2, if_neg h3, if_neg h4, if_neg h5, if_pos h6]

theorem escapeChar_2028 (c : Char) (h1 : c ≠ '"') (h2 : c ≠ '\\') (h3 : c ≠ '\n')
    (h4 : c ≠ '\r') (h5 : c ≠ '\t') (h6 : c.toNat = 0x2028) :
    escapeChar c = ['\\', 'u', '2', '0', '2', '8'] := by
  unfold escapeChar
  rw [if_neg h1, if_neg h2, if_neg h3, if_neg h4, if_neg h5,
    if_neg (by omega), if_pos h6]

theorem escapeChar_2029 (c : Char) (h1 : c ≠ '"') (h2 : c ≠ '\\') (h3 : c ≠ '\n')
    (h4 : c ≠ '\r') (h5 : c ≠ '\t') (h6 : c.toNat = 0x2029) :
    escapeChar c = ['\\', 'u', '2', '0', '2', '9'] := by
  unfold escapeChar
  rw [if_neg h1, if_neg h2, if_neg h3, if_neg h4, if_neg h5,
    if_neg (by omega), if_neg (by omega), if_pos h6]

theorem escapeChar_safe (c : Char) (h1 : c ≠ '"') (h2 : c ≠ '\\') (h3 : c ≠ '\n')
    (h4 : c ≠ '\r') (h5 : c ≠ '\t') (h6 : ¬(c.toNat < 0x20))
    (h7 : c.toNat ≠ 0x2028) (h8 : c.toNat ≠ 0x2029) : escapeChar c = [c] := by
  unfold escapeChar
  rw [if_neg h1, if_neg h2, if_neg h3, if_neg h4, if_neg h5, if_neg h6,
    if_neg h7, if_neg h8]

/-- The JSON string scanner inverts the encoder's escaping: scanning the
escaped body followed by a closing quote yields the original string. -/
theorem lexStringAux_escapeStr : ∀ (v rest : Str) (fuel : Nat),
    (escapeStr v ++ '"' :: rest).length ≤ fuel →
    lexStringAux fuel (escapeStr v ++ '"' :: rest) = .ok (v, rest) := by
  intro v
  induction v with
  | nil =>
    intro rest fuel hf
    cases fuel with
    | zero => simp [escapeStr] at hf
    | succ f =>
      show lexStringAux (f + 1) ('"' :: rest) = .ok ([], rest)
      simp [lexStringAux]
  | cons c v' ih =>
    intro rest fuel hf
    by_cases h1 : c = '"'
    · subst h1
      rw [show escapeStr ('"' :: v') = '\\' :: '"' :: escapeStr v' from rfl] at hf ⊢
      cases fuel with
      | zero => exfalso; simp only [List.length_cons, List.length_append] at hf; omega
      | succ f =>
        have hrec := ih rest f (by
          simp only [List.cons_append, List.length_cons, List.length_append] at hf ⊢
          omega)
        exact lexStringAux_short_escape '"' '"' _ rest v' f (by decide) (by decide) hrec
    · by_cases h2 : c = '\\'
      · subst h2
        rw [show escapeStr ('\\' :: v') = '\\' :: '\\' :: escapeStr v' from rfl] at hf ⊢
        cases fuel with
        | zero => exfalso; simp only [List.length_cons, List.length_append] at hf; omega
        | succ f =>
          have hrec := ih rest f (by
            simp only [List.cons_append, List.length_cons, List.length_append] at hf ⊢
            omega)
          exact lexStringAux_short_escape '\\' '\\' _ rest v' f (by decide) (by decide) hrec
      · by_cases h3 : c = '\n'
        · subst h3
          rw [show escapeStr ('\n' :: v') = '\\' :: 'n' :: escapeStr v' from rfl] at hf ⊢
          cases fuel with
          | zero => exfalso; simp only [List.length_cons, List.length_append] at hf; omega
          | succ f =>
            have hrec := ih rest f (by
              simp only [List.cons_append, List.length_cons, List.length_append] at hf ⊢
              omega)
            exact lexStringAux_short_escape 'n' '\n' _ rest v' f (by decide) (by decide) hrec
        · by_cases h4 : c = '\r'
          · subst h4
            rw [show escapeStr ('\r' :: v') = '\\' :: 'r' :: escapeStr v' from rfl] at hf ⊢
            cases fuel with
            | zero => exfalso; simp only [List.length_cons, List.length_append] at hf; omega
            | succ f =>
              have hrec := ih rest f (by
                simp only [List.cons_append, List.length_cons, List.length_append] at hf ⊢
                omega)
              exact lexStringAux_short_escape 'r' '\r' _ rest v' f (by decide) (by decide) hrec
          · by_cases h5 : c = '\t'
            · subst h5
              rw [show escapeStr ('\t' :: v') = '\\' :: 't' :: escapeStr v' from rfl] at hf ⊢
              cases fuel with
              | zero => exfalso; simp only [List.length_cons, List.length_append] at hf; omega
              | succ f =>
                have hrec := ih rest f (by
                  simp only [List.cons_append, List.length_cons, List.length_append] at hf ⊢
                  omega)
                exact lexStringAux_short_escape 't' '\t' _ rest v' f (by decide) (by decide)
                  hrec
            · by_cases h6 : c.toNat < 0x20
              · have hec := escapeChar_ctl c h1 h2 h3 h4 h5 h6
                rw [show escapeStr (c :: v') = escapeChar c ++ escapeStr v' from rfl, hec]
                  at hf ⊢
                cases fuel with
                | zero => exfalso; simp only [List.length_cons, List.cons_append,
                    List.length_append] at hf; omega
                | succ f =>
                  have hrec := ih rest f (by
                    simp only [List.cons_append, List.length_cons, List.length_append]
                      at hf ⊢
                    omega)
                  have hdiv : c.toNat / 16 < 16 := by omega
                  have hmod : c.toNat % 16 < 16 := by omega
                  have hh := hex4_00 (c.toNat / 16) (c.toNat % 16)
                    (escapeStr v' ++ '"' :: rest) hdiv hmod
                  have hn : c.toNat / 16 * 16 + c.toNat % 16 = c.toNat := by omega
                  have happ := lexStringAux_u (c.toNat / 16 * 16 + c.toNat % 16)
                    '0' '0' (hexDigitLower (c.toNat / 16)) (hexDigitLower (c.toNat % 16))
                    (escapeStr v' ++ '"' :: rest) rest v' f hh (by omega) hrec
                  rw [hn, Char.ofNat_toNat] at happ
                  exact happ
              · by_cases h7 : c.toNat = 0x2028
                · have hec := escapeChar_2028 c h1 h2 h3 h4 h5 h7
                  rw [show escapeStr (c :: v') = escapeChar c ++ escapeStr v' from rfl, hec]
                    at hf ⊢
                  cases fuel with
                  | zero => exfalso; simp only [List.length_cons, List.cons_append,
                      List.length_append] at hf; omega
                  | succ f =>
                    have hrec := ih rest f (by
                      simp only [List.cons_append, List.length_cons, List.length_append]
                        at hf ⊢
                      omega)
                    have hh := hex4_2028 (escapeStr v' ++ '"' :: rest)
                    have happ := lexStringAux_u 0x2028 '2' '0' '2' '8'
                      (escapeStr v' ++ '"' :: rest) rest v' f hh (by omega) hrec
                    rw [show (0x2028 : Nat) = c.toNat from h7.symm, Char.ofNat_toNat]
                      at happ
                    exact happ
                · by_cases h8 : c.toNat = 0x2029
                  · have hec := escapeChar_2029 c h1 h2 h3 h4 h5 h8
                    rw [show escapeStr (c :: v') = escapeChar c ++ escapeStr v' from rfl,
                      hec] at hf ⊢
                    cases fuel with
                    | zero => exfalso; simp only [List.length_cons, List.cons_append,
                        List.length_append] at hf; omega
                    | succ f =>
                      have hrec := ih rest f (by
                        simp only [List.cons_append, List.length_cons, List.length_append]
                          at hf ⊢
                        omega)
                      have hh := hex4_2029 (escapeStr v' ++ '"' :: rest)
                      have happ := lexStringAux_u 0x2029 '2' '0' '2' '9'
                        (escapeStr v' ++ '"' :: rest) rest v' f hh (by omega) hrec
                      rw [show (0x2029 : Nat) = c.toNat from h8.symm, Char.ofNat_toNat]
                        at happ
                      exact happ
                  · have hec := escapeChar_safe c h1 h2 h3 h4 h5 h6 h7 h8
                    rw [show escapeStr (c :: v') = escapeChar c ++ escapeStr v' from rfl,
                      hec] at hf ⊢
                    cases fuel with
                    | zero => exfalso; simp only [List.length_cons, List.cons_append,
                        List.length_append] at hf; omega
                    | succ f =>
                      have hrec := ih rest f (by
                        simp only [List.cons_append, List.length_cons, List.length_append]
                          at hf ⊢
                        omega)
                      exact lexStringAux_lit c _ rest v' f h1 h2 h6 hrec

theorem exceptMap_map {ε α β γ : Type} (e : Except ε α) (f : α → β) (g : β → γ) :
    (e.map f).map g = e.map (fun x => g (f x)) := by
  cases e <;> rfl

theorem tokenize_space (rest : Str) : tokenize (' ' :: rest) = tokenize rest := by
  unfold tokenize
  simp only [List.length_cons, jsonTokensAux]
  rw [if_pos (by decide)]

theorem tokenize_newline (rest : Str) : tokenize ('\n' :: rest) = tokenize rest := by
  unfold tokenize
  simp only [List.length_cons, jsonTokensAux]
  rw [if_pos (by decide)]

theorem tokenize_comma (rest : Str) : tokenize (',' :: rest) = tokenize rest := by
  unfold tokenize
  simp only [List.length_cons, jsonTokensAux]
  rw [if_neg (by decide), if_pos (by decide)]

theorem tokenize_colon (rest : Str) : tokenize (':' :: rest) = tokenize rest := by
  unfold tokenize
  simp only [List.length_cons, jsonTokensAux]
  rw [if_neg (by decide), if_pos (by decide)]

theorem tokenize_lbrace (rest : Str) :
    tokenize ('{' :: rest) = (tokenize rest).map (JToken.lbrace :: ·) := by
  unfold tokenize
  simp only [List.length_cons, jsonTokensAux]
  rw [if_pos trivial, if_neg (by decide), if_neg (by decide)]

theorem tokenize_rbrace (rest : Str) :
    tokenize ('}' :: rest) = (tokenize rest).map (JToken.rbrace :: ·) := by
  unfold tokenize
  simp only [List.length_cons, jsonTokensAux]
  rw [if_neg (by decide), if_pos trivial, if_neg (by decide), if_neg (by decide)]

theorem tokenize_quote (rest : Str) (s rest2 : Str)
    (hlex : lexStringAux rest.length rest = .ok (s, rest2)) :
    tokenize ('"' :: rest) = (tokenize rest2).map (JToken.jstr s :: ·) := by
  unfold tokenize
  simp only [List.length_cons, jsonTokensAux]
  rw [if_neg (by decide), if_neg (by decide), if_neg (by decide), if_neg (by decide),
    if_pos trivial, if_neg (by decide), if_neg (by decide), hlex]
  dsimp only
  rw [jsonTokensAux_fuel_irrel rest.length rest2.length rest2
    (lexStringAux_consume _ _ _ _ hlex) le_rfl]

/-- Tokenizing the emitted entry lines prepends one string token per key and
per value, in order. -/
theorem tokenize_writeEntries : ∀ (m : OMap) (rest : Str), m ≠ [] →
    tokenize (writeEntries m ++ rest) =
      (tokenize rest).map ((m.flatMap fun p => [JToken.jstr p.1, JToken.jstr p.2]) ++ ·) := by
  intro m
  induction m with
  | nil => intro rest h; exact absurd rfl h
  | cons p m' ih =>
    intro rest _
    obtain ⟨k, v⟩ := p
    cases m' with
    | nil =>
      show tokenize ((' ' :: ' ' ::
        (encodeJSONString k ++ ':' :: ' ' :: (encodeJSONString v ++ ['\n']))) ++ rest) = _
      simp only [encodeJSONString, List.cons_append, List.append_assoc,
        List.singleton_append, List.nil_append]
      rw [tokenize_space, tokenize_space]
      rw [tokenize_quote _ k _ (lexStringAux_escapeStr k _ _ le_rfl)]
      rw [tokenize_colon, tokenize_space]
      rw [tokenize_quote _ v _ (lexStringAux_escapeStr v _ _ le_rfl)]
      rw [tokenize_newline, exceptMap_map]
      simp [List.flatMap_cons]
    | cons q m'' =>
      show tokenize ((' ' :: ' ' ::
        (encodeJSONString k ++ ':' :: ' ' ::
          (encodeJSONString v ++ ',' :: '\n' :: writeEntries (q :: m'')))) ++ rest) = _
      simp only [encodeJSONString, List.cons_append, List.append_assoc,
        List.singleton_append, List.nil_append]
      rw [tokenize_space, tokenize_space]
      rw [tokenize_quote _ k _ (lexStringAux_escapeStr k _ _ le_rfl)]
      rw [tokenize_colon, tokenize_space]
      rw [tokenize_quote _ v _ (lexStringAux_escapeStr v _ _ le_rfl)]
      rw [tokenize_comma, tokenize_newline]
      rw [ih rest (by simp)]
      rw [exceptMap_map, exceptMap_map]
      simp [List.flatMap_cons]

/-- Tokenizing a written document yields an opening brace, the key and value
string tokens in order, and a closing brace. -/
theorem tokenize_writeJSONText (m : OMap) :
    tokenize (writeJSONText m) = .ok (JToken.lbrace ::
      ((m.flatMap fun p => [JToken.jstr p.1, JToken.jstr p.2]) ++ [JToken.rbrace])) := by
  cases m with
  | nil => rfl
  | cons p m' =>
    show tokenize ('{' :: '\n' :: (writeEntries (p :: m') ++ ['}', '\n'])) = _
    rw [tokenize_lbrace, tokenize_newline]
    rw [tokenize_writeEntries (p :: m') _ (by simp)]
    rw [show tokenize ['}', '\n'] = .ok [JToken.rbrace] from rfl]
    rfl

/-- Reading the emitted token stream rebuilds exactly the entries, appended
to the accumulator. -/
theorem readTokLoop_entries : ∀ (m : OMap) (om : OMap),
    (∀ p ∈ m, p.1 ∉ keysOf om) → nodupKeys m →
    readTokLoop ((m.flatMap fun p => [JToken.jstr p.1, JToken.jstr p.2]) ++ [JToken.rbrace]) om
      = .ok (om ++ m) := by
  intro m
  induction m with
  | nil => intro om _ _; simp [readTokLoop, isCloseTok]
  | cons p m' ih =>
    intro om hfresh hnodup
    obtain ⟨k, v⟩ := p
    simp only [nodupKeys, keysOf, List.map_cons, List.nodup_cons] at hnodup
    simp only [List.flatMap_cons, List.cons_append, List.append_assoc]
    show readTokLoop (JToken.jstr k :: JToken.jstr v ::
      ((m'.flatMap fun p => [JToken.jstr p.1, JToken.jstr p.2]) ++ [JToken.rbrace])) om = _
    simp only [readTokLoop]
    rw [if_neg (by simp [isCloseTok])]
    rw [OMap.set_fresh k v om (hfresh (k, v) (by simp))]
    rw [ih (om ++ [(k, v)]) ?_ hnodup.2]
    · simp
    · intro q hq
      simp only [keysOf, List.map_append, List.mem_append, List.map_cons, List.map_nil]
      rintro (hc | hc)
      · exact hfresh q (List.mem_cons_of_mem _ hq) hc
      · simp only [List.mem_cons, List.not_mem_nil, or_false] at hc
        exact hnodup.1 (hc ▸ List.mem_map_of_mem Prod.fst hq)

/-- Decoding a written document recovers the store exactly (same keys, same
order, same values). -/
theorem decodeDoc_writeJSONText (m : OMap) (h : nodupKeys m) :
    decodeDoc (writeJSONText m) = .ok m := by
  unfold decodeDoc
  rw [tokenize_writeJSONText m]
  dsimp only
  unfold readTokens
  dsimp only
  rw [readTokLoop_entries m [] (by simp [keysOf]) h]
  simp

theorem readTokLoop_nodup : ∀ (n : Nat) (ts : List JToken), ts.length ≤ n →
    ∀ (om m : OMap), nodupKeys om → readTokLoop ts om = .ok m → nodupKeys m := by
  intro n
  induction n with
  | zero =>
    intro ts hts om m hom h
    have hnil : ts = [] := List.length_eq_zero.mp (Nat.le_zero.mp hts)
    subst hnil
    exact Except.noConfusion h
  | succ n ih =>
    intro ts hts om m hom h
    cases ts with
    | nil => exact Except.noConfusion h
    | cons t rest =>
      unfold readTokLoop at h
      by_cases hcl : isCloseTok t = true
      · rw [if_pos hcl] at h
        injection h with h'
        rw [← h']
        exact hom
      · rw [if_neg hcl] at h
        cases rest with
        | nil => exact Except.noConfusion h
        | cons t2 rest' =>
          cases t2 with
          | jstr v =>
            cases t with
            | jstr k =>
              refine ih rest' ?_ _ m (nodupKeys_set k v om hom) h
              simp only [List.length_cons] at hts
              omega
            | lbrace => exact Except.noConfusion h
            | rbrace => exact Except.noConfusion h
            | lbrack => exact Except.noConfusion h
            | rbrack => exact Except.noConfusion h
            | jnum lex => exact Except.noConfusion h
            | jbool b => exact Except.noConfusion h
            | jnull => exact Except.noConfusion h
          | lbrace => exact Except.noConfusion h
          | rbrace => exact Except.noConfusion h
          | lbrack => exact Except.noConfusion h
          | rbrack => exact Except.noConfusion h
          | jnum lex => exact Except.noConfusion h
          | jbool b => exact Except.noConfusion h
          | jnull => exact Except.noConfusion h

/-- Every store produced by the document reader satisfies the `OrderedMap`
key-uniqueness invariant. -/
theorem readJSONFile_nodup (file : Option Str) (m : OMap)
    (h : readJSONFile file = .ok m) : nodupKeys m := by
  cases file with
  | none =>
    injection h with h'
    rw [← h']
    simp [nodupKeys, keysOf]
  | some text =>
    unfold readJSONFile decodeDoc at h
    dsimp only at h
    cases ht : tokenize text with
    | error e => rw [ht] at h; exact Except.noConfusion h
    | ok ts =>
      rw [ht] at h
      dsimp only at h
      unfold readTokens at h
      cases ts with
      | nil => exact Except.noConfusion h
      | cons t rest =>
        exact readTokLoop_nodup rest.length rest le_rfl [] m
          (by simp [nodupKeys, keysOf]) h

theorem runPipelineStores_no_untr (api : List Str → Except String Str)
    (inputJSON outputJSON : OMap) (bs : Nat) (h : (mergeJSON inputJSON outputJSON).2 = []) :
    runPipelineStores api inputJSON outputJSON bs = .ok (mergeJSON inputJSON outputJSON).1 := by
  unfold runPipelineStores
  rw [if_neg (by simp [h])]

theorem runPipelineStores_translate_error (api : List Str → Except String Str)
    (inputJSON outputJSON : OMap) (bs : Nat) (e : String)
    (hu : (mergeJSON inputJSON outputJSON).2.length > 0)
    (ht : translateJSONValues api
      (toTranslateOf (mergeJSON inputJSON outputJSON).1 (mergeJSON inputJSON outputJSON).2)
      bs = .error e) :
    runPipelineStores api inputJSON outputJSON bs =
      .error ("error translating JSON values: " ++ e) := by
  unfold runPipelineStores
  rw [if_pos hu, ht]

theorem runPipelineStores_translate_ok (api : List Str → Except String Str)
    (inputJSON outputJSON : OMap) (bs : Nat) (td : OMap)
    (hu : (mergeJSON inputJSON outputJSON).2.length > 0)
    (ht : translateJSONValues api
      (toTranslateOf (mergeJSON inputJSON outputJSON).1 (mergeJSON inputJSON outputJSON).2)
      bs = .ok td) :
    runPipelineStores api inputJSON outputJSON bs =
      .ok (applyTranslated (mergeJSON inputJSON outputJSON).1 td) := by
  unfold runPipelineStores
  rw [if_pos hu, ht]

/-- On success the pipeline's final store binds every input key. -/
theorem runPipelineStores_isSome (api : List Str → Except String Str)
    (inputJSON outputJSON : OMap) (bs : Nat) (final : OMap) (k : Str)
    (hnod : nodupKeys inputJSON)
    (h : runPipelineStores api inputJSON outputJSON bs = .ok final)
    (hk : k ∈ keysOf inputJSON) : (OMap.get final k).isSome := by
  have hmk : k ∈ keysOf (mergeJSON inputJSON outputJSON).1 := by
    rw [keysOf_mergeJSON inputJSON outputJSON hnod]
    exact hk
  have hmerged : (OMap.get (mergeJSON inputJSON outputJSON).1 k).isSome :=
    get_isSome_of_mem_keys k _ hmk
  unfold runPipelineStores at h
  by_cases hu : (mergeJSON inputJSON outputJSON).2.length > 0
  · rw [if_pos hu] at h
    cases ht : translateJSONValues api
        (toTranslateOf (mergeJSON inputJSON outputJSON).1
          (mergeJSON inputJSON outputJSON).2) bs with
    | error e => rw [ht] at h; exact Except.noConfusion h
    | ok td =>
      rw [ht] at h
      dsimp only at h
      injection h with h'
      rw [← h']
      unfold applyTranslated
      exact foldl_set_isSome k Prod.snd td _ hmerged
  · rw [if_neg hu] at h
    injection h with h'
    rw [← h']
    exact hmerged

/-- If every binding of `final` differs from the corresponding source value,
a re-merge marks nothing for translation. -/
theorem merge_untr_empty (inputJSON final : OMap) (hnod : nodupKeys inputJSON)
    (hsome : ∀ k ∈ keysOf inputJSON, (OMap.get final k).isSome)
    (hdiff : ∀ p ∈ inputJSON, OMap.get final p.1 ≠ some p.2) :
    (mergeJSON inputJSON final).2 = [] := by
  rw [mergeJSON_char inputJSON final hnod]
  rw [List.map_eq_nil_iff, List.filter_eq_nil_iff]
  intro p hp
  cases hg : OMap.get final p.1 with
  | none =>
    exfalso
    have := hsome p.1 (List.mem_map_of_mem Prod.fst hp)
    rw [hg] at this
    exact Bool.noConfusion this
  | some ov =>
    dsimp only
    have hne : ov ≠ p.2 := by
      intro he
      exact hdiff p hp (by rw [hg, he])
    simp [hne]

theorem foldl_set_nodup : ∀ (ps : List (Str × Str)) (m : OMap), nodupKeys m →
    nodupKeys (ps.foldl (fun acc p => OMap.set acc p.1 p.2) m) := by
  intro ps
  induction ps with
  | nil => intro m h; exact h
  | cons p rest ih =>
    intro m h
    exact ih _ (nodupKeys_set p.1 p.2 m h)

theorem mergeJSON_nodup (input output : OMap) (h : nodupKeys input) :
    nodupKeys (mergeJSON input output).1 := by
  unfold nodupKeys
  rw [keysOf_mergeJSON input output h]
  exact h

/-- On success the pipeline's final store satisfies the key-uniqueness
invariant. -/
theorem runPipelineStores_nodup (api : List Str → Except String Str)
    (inputJSON outputJSON : OMap) (bs : Nat) (final : OMap)
    (hnod : nodupKeys inputJSON)
    (h : runPipelineStores api inputJSON outputJSON bs = .ok final) :
    nodupKeys final := by
  unfold runPipelineStores at h
  by_cases hu : (mergeJSON inputJSON outputJSON).2.length > 0
  · rw [if_pos hu] at h
    cases ht : translateJSONValues api
        (toTranslateOf (mergeJSON inputJSON outputJSON).1
          (mergeJSON inputJSON outputJSON).2) bs with
    | error e => rw [ht] at h; exact Except.noConfusion h
    | ok td =>
      rw [ht] at h
      dsimp only at h
      injection h with h'
      rw [← h']
      exact foldl_set_nodup td _ (mergeJSON_nodup inputJSON outputJSON hnod)
  · rw [if_neg hu] at h
    injection h with h'
    rw [← h']
    exact mergeJSON_nodup inputJSON outputJSON hnod

/-- C1: the merge processes keys in the source insertion order; a key is
marked as needing translation exactly when the existing store has no entry or
the existing value equals the source value (merged value = source value), and
otherwise the merged value is the existing value and the key is not marked;
the merged store has exactly the source key set and order, dropping keys
present only in the existing store. -/
theorem c1_merge_precedence (input output : OMap) (h : nodupKeys input) :
    mergeJSON input output =
      (input.map (fun p =>
          (p.1, match OMap.get output p.1 with
                | none => p.2
                | some ov => if ov = p.2 then p.2 else ov)),
       (input.filter (fun p =>
          match OMap.get output p.1 with
          | none => true
          | some ov => ov == p.2)).map Prod.fst)
    ∧ keysOf (mergeJSON input output).1 = keysOf input :=
  ⟨mergeJSON_char input output h, keysOf_mergeJSON input output h⟩

theorem c1_merge_precedence_witness :
    nodupKeys [("a".data, "Hello".data), ("b".data, "X".data), ("c".data, "New".data)]
    ∧ (mergeJSON [("a".data, "Hello".data), ("b".data, "X".data), ("c".data, "New".data)]
          [("a".data, "Bonjour".data), ("b".data, "X".data), ("d".data, "Z".data)] =
        ([("a".data, "Hello".data), ("b".data, "X".data), ("c".data, "New".data)].map
            (fun p =>
              (p.1, match OMap.get [("a".data, "Bonjour".data), ("b".data, "X".data),
                        ("d".data, "Z".data)] p.1 with
                    | none => p.2
                    | some ov => if ov = p.2 then p.2 else ov)),
         ([("a".data, "Hello".data), ("b".data, "X".data), ("c".data, "New".data)].filter
            (fun p =>
              match OMap.get [("a".data, "Bonjour".data), ("b".data, "X".data),
                  ("d".data, "Z".data)] p.1 with
              | none => true
              | some ov => ov == p.2)).map Prod.fst)
       ∧ keysOf (mergeJSON
            [("a".data, "Hello".data), ("b".data, "X".data), ("c".data, "New".data)]
            [("a".data, "Bonjour".data), ("b".data, "X".data), ("d".data, "Z".data)]).1
          = keysOf [("a".data, "Hello".data), ("b".data, "X".data), ("c".data, "New".data)]) :=
  ⟨by decide, c1_merge_precedence
      [("a".data, "Hello".data), ("b".data, "X".data), ("c".data, "New".data)]
      [("a".data, "Bonjour".data), ("b".data, "X".data), ("d".data, "Z".data)] (by decide)⟩

/-- C2: for a batch with at least one non-blank value whose api call returns
content, a line count differing from the sent non-blank count makes the batch
fail with the translation mismatch error and no result is accepted; on an
equal count every returned line is assigned in order to the position of the
corresponding non-blank input, other positions keeping their value. -/
theorem c2_alignment (api : List Str → Except String Str) (texts : List Str)
    (content : Str) (hsome : nonEmptyIdx 0 texts ≠ [])
    (hapi : api (sentTexts texts) = .ok content) :
    ((splitOnNL content).length ≠ (nonEmptyIdx 0 texts).length →
      translateText api texts = .error "translation mismatch")
    ∧ ((splitOnNL content).length = (nonEmptyIdx 0 texts).length →
      ∃ r, translateText api texts = .ok r ∧ r.length = texts.length ∧
        (∀ (j : Nat) (p : Nat × Str) (l : Str), nth (nonEmptyIdx 0 texts) j = some p →
          nth (splitOnNL content) j = some l →
          nth r p.1 = some (cleanTranslation (cleanTranslation l))) ∧
        (∀ (j : Nat) (v : Str), nth texts j = some v →
          (∀ p ∈ nonEmptyIdx 0 texts, p.1 ≠ j) → nth r j = some v)) :=
  ⟨fun hmis => translateText_mismatch api texts content hsome hapi hmis,
   fun hlen => translateText_ok_positions api texts content hsome hapi hlen⟩

theorem c2_alignment_witness :
    nonEmptyIdx 0 ["Hello".data, " ".data, "World".data] ≠ []
    ∧ (((splitOnNL "Bonjour\nMonde".data).length
          ≠ (nonEmptyIdx 0 ["Hello".data, " ".data, "World".data]).length →
        translateText (fun _ => .ok "Bonjour\nMonde".data)
          ["Hello".data, " ".data, "World".data] = .error "translation mismatch")
      ∧ ((splitOnNL "Bonjour\nMonde".data).length
          = (nonEmptyIdx 0 ["Hello".data, " ".data, "World".data]).length →
        ∃ r, translateText (fun _ => .ok "Bonjour\nMonde".data)
            ["Hello".data, " ".data, "World".data] = .ok r
          ∧ r.length = ["Hello".data, " ".data, "World".data].length ∧
          (∀ (j : Nat) (p : Nat × Str) (l : Str),
            nth (nonEmptyIdx 0 ["Hello".data, " ".data, "World".data]) j = some p →
            nth (splitOnNL "Bonjour\nMonde".data) j = some l →
            nth r p.1 = some (cleanTranslation (cleanTranslation l))) ∧
          (∀ (j : Nat) (v : Str), nth ["Hello".data, " ".data, "World".data] j = some v →
            (∀ p ∈ nonEmptyIdx 0 ["Hello".data, " ".data, "World".data], p.1 ≠ j) →
            nth r j = some v))) :=
  ⟨by decide, c2_alignment (fun _ => .ok "Bonjour\nMonde".data)
      ["Hello".data, " ".data, "World".data] "Bonjour\nMonde".data (by decide) rfl⟩

/-- C3 counterexample: the whitespace-only value of a single space is indeed
skipped and preserved, but the whitespace-only value of a space followed by a
newline IS sent to the api: with a failing api the run aborts on its account,
and with an api answering X the stored value becomes X, not the original. -/
theorem c3_counterexample :
    translateJSONValues (fun _ => .error "boom") [("a".data, " ".data)] 100
      = .ok [("a".data, " ".data)]
    ∧ translateJSONValues (fun _ => .error "boom") [("a".data, " \n".data)] 100
      = .error "error translating final batch: boom"
    ∧ translateJSONValues (fun _ => .ok "X".data) [("a".data, " \n".data)] 100
      = .ok [("a".data, "X".data)]
    ∧ goTrimSpace " \n".data = [] := by decide

/-- C3 (amended with: containing no newline): a whitespace-only value without
a newline is never among the texts sent to the api and reaches the output
store unchanged under its key, the keys keeping the input order. -/
theorem c3_blank_passthrough (api : List Str → Except String Str) (data : OMap)
    (bs : Nat) (k v : Str) (out : OMap) (hnodup : nodupKeys data)
    (hmem : (k, v) ∈ data) (hbl : goTrimSpace v = []) (hnl : '\n' ∉ v)
    (h : translateJSONValues api data bs = .ok out) :
    (∀ texts : List Str, v ∉ sentTexts texts)
    ∧ OMap.get out k = some v
    ∧ keysOf out = keysOf data :=
  ⟨blank_not_sent v hbl,
   translateJSONValues_blank api data bs k v out hnodup hmem hbl hnl h,
   translateJSONValues_keys api data bs out hnodup h⟩

theorem c3_blank_passthrough_witness :
    nodupKeys [("a".data, "Hi".data), ("b".data, " ".data)]
    ∧ ("b".data, " ".data) ∈ [("a".data, "Hi".data), ("b".data, " ".data)]
    ∧ goTrimSpace " ".data = []
    ∧ '\n' ∉ " ".data
    ∧ translateJSONValues (fun _ => .ok "Salut".data)
        [("a".data, "Hi".data), ("b".data, " ".data)] 100
        = .ok [("a".data, "Salut".data), ("b".data, " ".data)]
    ∧ ((∀ texts : List Str, " ".data ∉ sentTexts texts)
      ∧ OMap.get [("a".data, "Salut".data), ("b".data, " ".data)] "b".data
          = some " ".data
      ∧ keysOf [("a".data, "Salut".data), ("b".data, " ".data)]
          = keysOf [("a".data, "Hi".data), ("b".data, " ".data)]) :=
  ⟨by decide, by decide, by decide, by decide, by decide,
   c3_blank_passthrough (fun _ => .ok "Salut".data)
      [("a".data, "Hi".data), ("b".data, " ".data)] 100 "b".data " ".data
      [("a".data, "Salut".data), ("b".data, " ".data)]
      (by decide) (by decide) (by decide) (by decide) (by decide)⟩

/-- C4 counterexample: an absent input file is not a hard error: the read
yields an empty store and the whole run succeeds, writing the empty object
document. -/
theorem c4_counterexample :
    readJSONFile (none : Option Str) = .ok []
    ∧ translateJSONModel (fun _ => .error "no api") none none 100
      = .ok ([], "\x7b\n\x7d\n".data) := by decide

/-- C4 (amended: the absent-file branch tolerates absence on BOTH sides; an
absent input file yields an empty store and the run proceeds, writing an
empty object document). -/
theorem c4_absent_input_tolerated (api : List Str → Except String Str) (bs : Nat) :
    readJSONFile none = .ok ([] : OMap)
    ∧ translateJSONModel api none none bs = .ok ([], writeJSONText []) :=
  ⟨rfl, rfl⟩

/-- C5 counterexample: with a whitespace-only source value the first run
succeeds but stores the value unchanged, so the second run marks its key as
untranslated again: the second untranslated list is not empty. -/
theorem c5_counterexample :
    runPipelineStores (fun _ => .error "no api") [("a".data, " ".data)] [] 100
      = .ok [("a".data, " ".data)]
    ∧ (mergeJSON [("a".data, " ".data)] [("a".data, " ".data)]).2 = ["a".data] := by decide

/-- C5 (amended with: every final value differs from its source value): when
the first run succeeds and each stored value differs from the corresponding
source value, the written document reads back as exactly the final store and
re-merging the unchanged input against it marks no key for translation. -/
theorem c5_idempotent (api : List Str → Except String Str)
    (inputJSON outputJSON final : OMap) (bs : Nat) (hnod : nodupKeys inputJSON)
    (hrun : runPipelineStores api inputJSON outputJSON bs = .ok final)
    (hdiff : ∀ p ∈ inputJSON, OMap.get final p.1 ≠ some p.2) :
    readJSONFile (some (writeJSONText final)) = .ok final
    ∧ (mergeJSON inputJSON final).2 = [] :=
  ⟨decodeDoc_writeJSONText final
      (runPipelineStores_nodup api inputJSON outputJSON bs final hnod hrun),
   merge_untr_empty inputJSON final hnod
     (fun k hk => runPipelineStores_isSome api inputJSON outputJSON bs final k hnod hrun hk)
     hdiff⟩

theorem c5_idempotent_witness :
    nodupKeys [("a".data, "Hello".data)]
    ∧ runPipelineStores (fun _ => .ok "Bonjour".data) [("a".data, "Hello".data)] [] 100
        = .ok [("a".data, "Bonjour".data)]
    ∧ (∀ p ∈ [("a".data, "Hello".data)],
        OMap.get [("a".data, "Bonjour".data)] p.1 ≠ some p.2)
    ∧ (readJSONFile (some (writeJSONText [("a".data, "Bonjour".data)]))
        = .ok [("a".data, "Bonjour".data)]
      ∧ (mergeJSON [("a".data, "Hello".data)] [("a".data, "Bonjour".data)]).2 = []) :=
  ⟨by decide, by decide, by decide,
   c5_idempotent (fun _ => .ok "Bonjour".data) [("a".data, "Hello".data)] []
      [("a".data, "Bonjour".data)] 100 (by decide) (by decide) (by decide)⟩

/-- C6: a document decoding to a store re-encodes to a document that decodes
back to the very same store (same key order, same values), and the angle
brackets and the ampersand are serialized without HTML escaping. -/
theorem c6_roundtrip (D : Str) (m : OMap) (h : decodeDoc D = .ok m) :
    decodeDoc (writeJSONText m) = .ok m
    ∧ escapeChar '<' = ['<'] ∧ escapeChar '>' = ['>'] ∧ escapeChar '&' = ['&'] :=
  ⟨decodeDoc_writeJSONText m (readJSONFile_nodup (some D) m h),
   by decide, by decide, by decide⟩

theorem c6_roundtrip_witness :
    decodeDoc "\x7b\n  \"a\": \"<b>&\"\n\x7d\n".data = .ok [("a".data, "<b>&".data)]
    ∧ (decodeDoc (writeJSONText [("a".data, "<b>&".data)]) = .ok [("a".data, "<b>&".data)]
      ∧ escapeChar '<' = ['<'] ∧ escapeChar '>' = ['>'] ∧ escapeChar '&' = ['&']) :=
  ⟨by decide, c6_roundtrip "\x7b\n  \"a\": \"<b>&\"\n\x7d\n".data
      [("a".data, "<b>&".data)] (by decide)⟩

/-- C7 counterexample: the value of a space, then a, then newline, then b
comes back from the identity-stub round trip with the leading space trimmed
away, so the newline is NOT at its original position and the value is not
returned intact. -/
theorem c7_counterexample :
    translateJSONValues idApi [("a".data, " a\nb".data)] 100
      = .ok [("a".data, "a\nb".data)]
    ∧ " a\nb".data ≠ "a\nb".data := by decide

/-- C7 (amended with: the value contains no placeholder occurrence and its
newline-protected form is trim-fixed): under these conditions the identity
stub round trip returns every value unchanged, newlines intact in place. -/
theorem c7_newline_roundtrip (data : OMap) (bs : Nat) (hnodup : nodupKeys data)
    (hcond : ∀ p ∈ data, containsSub p.2 newlinePlaceholder = false ∧
      goTrimSpace (goReplaceAll p.2 nlStr newlinePlaceholder)
        = goReplaceAll p.2 nlStr newlinePlaceholder) :
    translateJSONValues idApi data bs = .ok data := by
  rw [translateJSONValues_id data bs hnodup (fun p hp => (hcond p hp).2)]
  congr 1
  have hmap : ∀ p ∈ data, (fun p : Str × Str =>
      (p.1, goReplaceAll (goReplaceAll p.2 nlStr newlinePlaceholder)
        newlinePlaceholder nlStr)) p = id p := by
    intro p hp
    dsimp only [id]
    rw [forward_backward p.2 (hcond p hp).1]
  rw [List.map_congr_left hmap, List.map_id]

theorem c7_newline_roundtrip_witness :
    nodupKeys [("k".data, "a\nb".data)]
    ∧ (∀ p ∈ [("k".data, "a\nb".data)],
        containsSub p.2 newlinePlaceholder = false ∧
        goTrimSpace (goReplaceAll p.2 nlStr newlinePlaceholder)
          = goReplaceAll p.2 nlStr newlinePlaceholder)
    ∧ translateJSONValues idApi [("k".data, "a\nb".data)] 100
        = .ok [("k".data, "a\nb".data)] :=
  ⟨by decide, by decide,
   c7_newline_roundtrip [("k".data, "a\nb".data)] 100 (by decide) (by decide)⟩

/-- C8: with both reads succeeding, a translation error on the untranslated
keys aborts the run with that error and nothing is produced for writing, and
conversely any successful run produces exactly the serialization of its final
store, the final store coming either from a merge with no untranslated keys
or from a successful translation merged back. -/
theorem c8_no_partial_write (api : List Str → Except String Str)
    (inF outF : Option Str) (bs : Nat) (inputJSON outputJSON : OMap)
    (hin : readJSONFile inF = .ok inputJSON)
    (hout : readJSONFile outF = .ok outputJSON) :
    (∀ e : String, (mergeJSON inputJSON outputJSON).2.length > 0 →
      translateJSONValues api
        (toTranslateOf (mergeJSON inputJSON outputJSON).1
          (mergeJSON inputJSON outputJSON).2) bs = .error e →
      translateJSONModel api inF outF bs
        = .error (.errored ("error translating JSON values: " ++ e)))
    ∧ (∀ (m : OMap) (text : Str), translateJSONModel api inF outF bs = .ok (m, text) →
      text = writeJSONText m ∧
      ((mergeJSON inputJSON outputJSON).2.length = 0
          ∧ m = (mergeJSON inputJSON outputJSON).1
        ∨ ∃ td, translateJSONValues api
            (toTranslateOf (mergeJSON inputJSON outputJSON).1
              (mergeJSON inputJSON outputJSON).2) bs = .ok td
          ∧ m = applyTranslated (mergeJSON inputJSON outputJSON).1 td)) := by
  constructor
  · intro e hu ht
    unfold translateJSONModel
    rw [hin, hout]
    dsimp only
    rw [runPipelineStores_translate_error api inputJSON outputJSON bs e hu ht]
  · intro m text h
    unfold translateJSONModel at h
    rw [hin, hout] at h
    dsimp only at h
    cases hr : runPipelineStores api inputJSON outputJSON bs with
    | error e => rw [hr] at h; exact Except.noConfusion h
    | ok merged =>
      rw [hr] at h
      dsimp only at h
      injection h with h'
      injection h' with hm htx
      subst hm
      subst htx
      refine ⟨rfl, ?_⟩
      unfold runPipelineStores at hr
      by_cases hu : (mergeJSON inputJSON outputJSON).2.length > 0
      · rw [if_pos hu] at hr
        cases ht : translateJSONValues api
            (toTranslateOf (mergeJSON inputJSON outputJSON).1
              (mergeJSON inputJSON outputJSON).2) bs with
        | error e => rw [ht] at hr; exact Except.noConfusion hr
        | ok td =>
          rw [ht] at hr
          dsimp only at hr
          injection hr with hr'
          exact Or.inr ⟨td, rfl, hr'.symm⟩
      · rw [if_neg hu] at hr
        injection hr with hr'
        exact Or.inl ⟨by omega, hr'.symm⟩

theorem c8_no_partial_write_witness :
    readJSONFile (some "\x7b\n  \"a\": \"Hello\"\n\x7d\n".data)
      = .ok [("a".data, "Hello".data)]
    ∧ readJSONFile (none : Option Str) = .ok []
    ∧ ((∀ e : String, (mergeJSON [("a".data, "Hello".data)] []).2.length > 0 →
        translateJSONValues (fun _ => .error "boom")
          (toTranslateOf (mergeJSON [("a".data, "Hello".data)] []).1
            (mergeJSON [("a".data, "Hello".data)] []).2) 100 = .error e →
        translateJSONModel (fun _ => .error "boom")
            (some "\x7b\n  \"a\": \"Hello\"\n\x7d\n".data) none 100
          = .error (.errored ("error translating JSON values: " ++ e)))
      ∧ (∀ (m : OMap) (text : Str),
        translateJSONModel (fun _ => .error "boom")
            (some "\x7b\n  \"a\": \"Hello\"\n\x7d\n".data) none 100 = .ok (m, text) →
        text = writeJSONText m ∧
        ((mergeJSON [("a".data, "Hello".data)] []).2.length = 0
            ∧ m = (mergeJSON [("a".data, "Hello".data)] []).1
          ∨ ∃ td, translateJSONValues (fun _ => .error "boom")
              (toTranslateOf (mergeJSON [("a".data, "Hello".data)] []).1
                (mergeJSON [("a".data, "Hello".data)] []).2) 100 = .ok td
            ∧ m = applyTranslated (mergeJSON [("a".data, "Hello".data)] []).1 td))) :=
  ⟨by decide, rfl,
   c8_no_partial_write (fun _ => .error "boom")
      (some "\x7b\n  \"a\": \"Hello\"\n\x7d\n".data) none 100
      [("a".data, "Hello".data)] [] (by decide) rfl⟩

/-- C9 counterexample: reading the document consisting of the array with the
single number 1 does NOT panic: the value decode fails first and the reader
returns the malformed-value error. -/
theorem c9_counterexample :
    readJSONFile (some "[1]".data) = .error (.errored "error reading JSON value") := by
  decide

/-- C9 (amended: the panicking example is an array pairing a non-string key
token with a decodable string value, such as the array of 1 and x; the array
of the single number 1 instead fails at the value decode with the
malformed-value error; and an array of strings is silently accepted as
alternating key/value pairs). -/
theorem c9_non_object_top_level :
    readJSONFile (some "[1, \"x\"]".data)
      = .error (.panicked "interface conversion: interface is not string")
    ∧ readJSONFile (some "[\"a\", \"b\", \"c\", \"d\"]".data)
      = .ok [("a".data, "b".data), ("c".data, "d".data)]
    ∧ readJSONFile (some "[1]".data) = .error (.errored "error reading JSON value") := by
  decide

/-- C10: a trim-fixed, newline-free value containing the literal placeholder
token has each token occurrence turned into a literal newline by the identity
stub round trip, so the value is not preserved; moreover two distinct inputs
map to the same stored result, so the round trip is not injective. -/
theorem c10_placeholder_collision (v : Str) (bs : Nat)
    (hnl : '\n' ∉ v) (htrim : goTrimSpace v = v)
    (hcont : containsSub v newlinePlaceholder = true) :
    (∀ k : Str, translateJSONValues idApi [(k, v)] bs
      = .ok [(k, goReplaceAll v newlinePlaceholder nlStr)])
    ∧ goReplaceAll v newlinePlaceholder nlStr ≠ v
    ∧ translateJSONValues idApi
        [("k".data, "a".data ++ newlinePlaceholder ++ "b".data)] 100
      = .ok [("k".data, "a\nb".data)]
    ∧ translateJSONValues idApi [("k".data, "a\nb".data)] 100
      = .ok [("k".data, "a\nb".data)]
    ∧ "a".data ++ newlinePlaceholder ++ "b".data ≠ "a\nb".data := by
  refine ⟨?_, ?_, by decide, by decide, by decide⟩
  · intro k
    rw [translateJSONValues_id [(k, v)] bs (by simp [nodupKeys, keysOf]) ?htrim]
    · dsimp only [List.map]
      rw [forward_no_nl v hnl]
    case htrim =>
      intro p hp
      rw [List.mem_singleton] at hp
      subst hp
      dsimp only
      rw [forward_no_nl v hnl]
      exact htrim
  · have hlt := goReplaceAll_length_lt newlinePlaceholder nlStr (by decide) (by decide)
      v hcont
    intro he
    rw [he] at hlt
    exact lt_irrefl _ hlt

theorem c10_placeholder_collision_witness :
    '\n' ∉ "a".data ++ newlinePlaceholder ++ "b".data
    ∧ goTrimSpace ("a".data ++ newlinePlaceholder ++ "b".data)
        = "a".data ++ newlinePlaceholder ++ "b".data
    ∧ containsSub ("a".data ++ newlinePlaceholder ++ "b".data) newlinePlaceholder = true
    ∧ ((∀ k : Str, translateJSONValues idApi
          [(k, "a".data ++ newlinePlaceholder ++ "b".data)] 100
        = .ok [(k, goReplaceAll ("a".data ++ newlinePlaceholder ++ "b".data)
            newlinePlaceholder nlStr)])
      ∧ goReplaceAll ("a".data ++ newlinePlaceholder ++ "b".data)
          newlinePlaceholder nlStr ≠ "a".data ++ newlinePlaceholder ++ "b".data
      ∧ translateJSONValues idApi
          [("k".data, "a".data ++ newlinePlaceholder ++ "b".data)] 100
        = .ok [("k".data, "a\nb".data)]
      ∧ translateJSONValues idApi [("k".data, "a\nb".data)] 100
        = .ok [("k".data, "a\nb".data)]
      ∧ "a".data ++ newlinePlaceholder ++ "b".data ≠ "a\nb".data) :=
  ⟨by decide, by decide, by decide,
   c10_placeholder_collision ("a".data ++ newlinePlaceholder ++ "b".data) 100
      (by decide) (by decide) (by decide)⟩
